import Mathlib

/-!
Shallow embedding of the SwiftDepGraph dependency-resolution and graph-analysis
engine (source files: main.py and dependency_graph_analyzer.py).

Strings are handled as lists of characters (`List Char`); the regular
expressions of the source are fixed patterns whose quantifiers all range over
single-character classes, so each pattern is embedded as a deterministic
scanner with the same matching semantics (documented at each definition).
Python's `re.search` (leftmost match) is `reSearch`, `re.findall`
(non-overlapping, left to right) is `reFindAll`.
-/

set_option maxRecDepth 100000

namespace SwiftDep

/-- The double-quote character. -/
def dq : Char := Char.ofNat 34

/-- The single-quote character. -/
def sq : Char := Char.ofNat 39

/-- Characters matched by the regex class `\s` on the ASCII inputs involved. -/
def pySpace (c : Char) : Bool :=
  c = ' ' || c = '\t' || c = '\n' || c = '\r' || c = Char.ofNat 11 || c = Char.ofNat 12

/-- Characters of the regex class `["\']`. -/
def isQuoteCh (c : Char) : Bool := c = dq || c = sq

/-- Characters of the regex class `\d` (ASCII digits). -/
def isDigitCh (c : Char) : Bool := '0' ≤ c && c ≤ '9'

/-- Consume the literal `pat` from the front of `s`, returning the rest. -/
def litAt : List Char → List Char → Option (List Char)
  | [], s => some s
  | _ :: _, [] => none
  | p :: ps, c :: cs => if c = p then litAt ps cs else none

/-- Leftmost-match search: try the matcher at every start position from the
left, as Python's `re.search` does. -/
def reSearch {α : Type} (m : List Char → Option α) : List Char → Option α
  | [] => m []
  | c :: t =>
    match m (c :: t) with
    | some a => some a
    | none => reSearch m t

/-- All non-overlapping matches from the left, as Python's `re.findall` does.
Every embedded pattern consumes at least one character on success, so a fuel
of `length + 1` always scans the whole input. -/
def reFindAll {α : Type} (m : List Char → Option (α × List Char)) :
    Nat → List Char → List α
  | 0, _ => []
  | fuel + 1, s =>
    match m s with
    | some (a, rest) => a :: reFindAll m fuel rest
    | none =>
      match s with
      | [] => []
      | _ :: t => reFindAll m fuel t

/-- Match `["\']([^"\']+)["\']` at the current position: an opening quote, a
non-empty maximal run of non-quote characters (the capture), and a closing
quote.  The greedy `[^"\']+` is deterministic because the run must stop at
the first quote character, which then has to be the closing quote. -/
def quotedCap (s : List Char) : Option (List Char × List Char) :=
  match s with
  | [] => none
  | c :: cs =>
    if isQuoteCh c then
      let cap := cs.takeWhile (fun d => !isQuoteCh d)
      match cs.dropWhile (fun d => !isQuoteCh d) with
      | _ :: ds => if cap.isEmpty then none else some (cap, ds)
      | [] => none
    else none

/-- Does `needle` occur as a substring (Python's `in` on strings)? -/
def containsSub (needle hay : List Char) : Bool :=
  (reSearch (litAt needle) hay).isSome

/-- Split a character list at the first occurrence of `c`:
`some (before, after)` when `c` occurs, `none` otherwise. -/
def splitAtCh (c : Char) : List Char → Option (List Char × List Char)
  | [] => none
  | d :: ds =>
    if d = c then some ([], ds)
    else
      match splitAtCh c ds with
      | some (b, a) => some (d :: b, a)
      | none => none

/-- Characters allowed in a URL scheme by `urllib.parse`. -/
def schemeChar (c : Char) : Bool := c.isAlpha || c.isDigit || c = '+' || c = '-' || c = '.'

/-- Strip `;parameters` from the last path segment, as `urlparse` does via
`_splitparams` (only invoked when a `;` is present). -/
def dropParams (u : List Char) : List Char :=
  if ';' ∈ u then
    if '/' ∈ u then
      let lastSeg := (u.reverse.takeWhile (fun c => c ≠ '/')).reverse
      let pre := u.take (u.length - lastSeg.length)
      if ';' ∈ lastSeg then pre ++ lastSeg.takeWhile (fun c => c ≠ ';') else u
    else u.takeWhile (fun c => c ≠ ';')
  else u

/-- The `.path` component of Python's `urllib.parse.urlparse`, for URLs that
contain no tab/CR/LF and no surrounding whitespace (the inputs handled by the
program): strip a well-formed `scheme:`, then a `//netloc` up to the first of
`/?#`, then a `#fragment`, then a `?query`, then `;parameters` of the last
segment. -/
def pyUrlPath (url : List Char) : List Char :=
  let u1 :=
    match splitAtCh ':' url with
    | some (before, after) =>
      match before with
      | [] => url
      | c :: _ => if c.isAlpha && before.all schemeChar then after else url
    | none => url
  let u2 :=
    match u1 with
    | '/' :: '/' :: rest => rest.dropWhile (fun c => c ≠ '/' && c ≠ '?' && c ≠ '#')
    | _ => u1
  let u3 := u2.takeWhile (fun c => c ≠ '#')
  let u4 := u3.takeWhile (fun c => c ≠ '?')
  dropParams u4

/-- Remove a trailing `.git` (`github_url.endswith('.git')` branch). -/
def stripGitL (u : List Char) : List Char :=
  if (String.toList ".git").isSuffixOf u then u.take (u.length - 4) else u

/-- Python `str.strip('/')`: drop `/` from both ends. -/
def stripSlashes (u : List Char) : List Char :=
  ((u.dropWhile (fun c => c = '/')).reverse.dropWhile (fun c => c = '/')).reverse

/-- Python `str.split(sep)` for a one-character separator: `""` yields
`[""]`, consecutive separators yield empty segments. -/
def splitCh (sep : Char) : List Char → List (List Char)
  | [] => [[]]
  | c :: cs =>
    let r := splitCh sep cs
    if c = sep then [] :: r
    else
      match r with
      | h :: t => (c :: h) :: t
      | [] => [[c]]

/-- Python `str.split('/')`. -/
def splitSlash : List Char → List (List Char) := splitCh '/'

/-- `urlparse(url).path.strip('/').split('/')` after stripping `.git`, the
shared core of both identifier normalizers. -/
def pathSegments (url : String) : List (List Char) :=
  splitSlash (stripSlashes (pyUrlPath (stripGitL url.toList)))

/-- main.py `extract_repo_info`: `(owner, repo)` when the path splits into at
least two segments, `(None, None)` otherwise. -/
def extract_repo_info (url : String) : Option (String × String) :=
  match pathSegments url with
  | p0 :: p1 :: _ => some (String.mk p0, String.mk p1)
  | _ => none

/-- dependency_graph_analyzer.py `extract_repo_info_from_url`:
`f"{owner}/{repo}"` when the path splits into at least two segments. -/
def extract_repo_info_from_url (url : String) : Option String :=
  match pathSegments url with
  | p0 :: p1 :: _ => some (String.mk p0 ++ "/" ++ String.mk p1)
  | _ => none

example : extract_repo_info_from_url ("https://github.com/foo/bar.git") = some ("foo/bar") := by
  decide

example : extract_repo_info_from_url ("https://github.com/a//b") = some ("a/") := by
  decide

example : extract_repo_info ("https://github.com/foo/bar/") = some ("foo", "bar") := by
  decide

example : extract_repo_info ("no-url") = none := by decide

example : extract_repo_info_from_url ("https://github.com/onlyowner") = none := by decide

/-! ### Manifest parsing (regex scanners shared by both source files) -/

/-- The first match of `dependencies:\s*\[(.*?)\]` at the current position:
the literal marker, greedy whitespace, `[`, then a reluctant capture under
`re.DOTALL`, which is exactly everything up to the first `]`. -/
def matchDepsSectionAt (s : List Char) : Option (List Char) :=
  match litAt (String.toList "dependencies:") s with
  | none => none
  | some s1 =>
    match s1.dropWhile pySpace with
    | '[' :: s3 =>
      let cap := s3.takeWhile (fun c => c ≠ ']')
      match s3.dropWhile (fun c => c ≠ ']') with
      | _ :: _ => some cap
      | [] => none
    | _ => none

/-- `re.search(r'dependencies:\s*\[(.*?)\]', content, re.DOTALL)`. -/
def findDepsSection (content : String) : Option (List Char) :=
  reSearch matchDepsSectionAt content.toList

/-- Match `\.package\s*\(\s*url:\s*["\']([^"\']+)["\'][^)]*\)` at the current
position.  Each greedy sub-pattern is followed by a literal outside its class,
so matching is deterministic. -/
def matchPkgUrlAt (s : List Char) : Option (List Char × List Char) :=
  match litAt (String.toList ".package") s with
  | none => none
  | some s1 =>
  match litAt (String.toList "(") (s1.dropWhile pySpace) with
  | none => none
  | some s2 =>
  match litAt (String.toList "url:") (s2.dropWhile pySpace) with
  | none => none
  | some s3 =>
  match quotedCap (s3.dropWhile pySpace) with
  | none => none
  | some (cap, s4) =>
    match s4.dropWhile (fun c => c ≠ ')') with
    | _ :: rest => some (cap, rest)
    | [] => none

/-- Match `\.package\s*\(\s*["\']([^"\']+)["\'][^)]*\)` (the shorthand
declaration pattern) at the current position. -/
def matchPkgShortAt (s : List Char) : Option (List Char × List Char) :=
  match litAt (String.toList ".package") s with
  | none => none
  | some s1 =>
  match litAt (String.toList "(") (s1.dropWhile pySpace) with
  | none => none
  | some s2 =>
  match quotedCap (s2.dropWhile pySpace) with
  | none => none
  | some (cap, s4) =>
    match s4.dropWhile (fun c => c ≠ ')') with
    | _ :: rest => some (cap, rest)
    | [] => none

/-- Append to a list-as-set only when absent (models adding to a Python `set`;
iteration order of the set is modeled as first-insertion order, and no claim
depends on the order beyond multiplicity). -/
def setInsert (acc : List String) (x : String) : List String :=
  if x ∈ acc then acc else acc ++ [x]

/-- The raw locator strings of both declaration patterns inside a dependency
section, in scan order. -/
def sectionUrls (sec : List Char) : List (List Char) :=
  reFindAll matchPkgUrlAt (sec.length + 1) sec
    ++ reFindAll matchPkgShortAt (sec.length + 1) sec

/-- main.py `extract_dependencies_from_content`: locator strings containing
`github.com`, deduplicated at the locator-string level (a Python `set`).
The printing block of the source computes nothing that survives the call and
is not modeled. -/
def extract_dependencies_from_content (content : String) : List String :=
  match findDepsSection content with
  | none => []
  | some sec =>
    let urls := (sectionUrls sec).filter (fun u => containsSub (String.toList "github.com") u)
    (urls.map String.mk).foldl setInsert []

/-- Result record of `parse_package_swift` (spec: `ManifestRecord`;
`has_package_swift` is the `parsed` flag). -/
structure ParseResult where
  dependencies : List String
  package_name : Option String
  has_package_swift : Bool
deriving DecidableEq

/-- Match `name:\s*["\']([^"\']+)["\']` at the current position. -/
def matchNameAt (s : List Char) : Option (List Char) :=
  match litAt (String.toList "name:") s with
  | none => none
  | some s1 => (quotedCap (s1.dropWhile pySpace)).map Prod.fst

/-- dependency_graph_analyzer.py `parse_package_swift`.  The file argument is
`none` when the text cannot be read or decoded (the `except` branch); the
run never aborts.  Note the difference from main.py: each locator is
normalized by `extract_repo_info_from_url` first and the resulting
identifiers (not the locator strings) are collected into the set. -/
def parse_package_swift (file : Option String) : ParseResult :=
  match file with
  | none => ⟨[], none, false⟩
  | some content =>
    let deps :=
      match findDepsSection content with
      | none => []
      | some sec =>
        let urls := (sectionUrls sec).filter (fun u => containsSub (String.toList "github.com") u)
        let keys := urls.filterMap (fun u => extract_repo_info_from_url (String.mk u))
        keys.foldl setInsert []
    let name := (reSearch matchNameAt content.toList).map String.mk
    ⟨deps, name, true⟩

/-- A manifest with two textually different locators that normalize to the
same identifier, used to separate the two parsers' deduplication levels. -/
def dupManifest : String :=
  "dependencies: [ .package(url: \"https://github.com/foo/bar.git\", from: \"1.0.0\"), .package(url: \"https://github.com/foo/bar\", from: \"1.0.0\") ]"

example :
    extract_dependencies_from_content dupManifest
      = ["https://github.com/foo/bar.git", "https://github.com/foo/bar"] := by
  decide

example : (parse_package_swift (some dupManifest)).dependencies = ["foo/bar"] := by
  decide

example : (parse_package_swift (some ("let x = 1"))).has_package_swift = true := by decide

/-! ### Version-constraint classification (main.py `analyze_version_constraint`)

The source tries the patterns of its `version_patterns` dict in insertion
order: `from`, `upToNextMajor`, `upToNextMinor`, `exact`, `range`,
`closedRange`, `rangeOperator`, `branch`, `revision`, then a bare
semantic-version literal, and finally a no-constraint marker. -/

/-- Match `from:\s*["\']([^"\']+)["\']` at the current position. -/
def matchFromAt (s : List Char) : Option (List Char) :=
  match litAt (String.toList "from:") s with
  | none => none
  | some s1 => (quotedCap (s1.dropWhile pySpace)).map Prod.fst

/-- Match `\.upToNextMajor\s*\(\s*from:\s*["\']([^"\']+)["\']\s*\)`. -/
def matchUpToNextMajorAt (s : List Char) : Option (List Char) :=
  match litAt (String.toList ".upToNextMajor") s with
  | none => none
  | some s1 =>
  match litAt (String.toList "(") (s1.dropWhile pySpace) with
  | none => none
  | some s2 =>
  match litAt (String.toList "from:") (s2.dropWhile pySpace) with
  | none => none
  | some s3 =>
  match quotedCap (s3.dropWhile pySpace) with
  | none => none
  | some (cap, s4) =>
  match litAt (String.toList ")") (s4.dropWhile pySpace) with
  | none => none
  | some _ => some cap

/-- Match `\.upToNextMinor\s*\(\s*from:\s*["\']([^"\']+)["\']\s*\)`. -/
def matchUpToNextMinorAt (s : List Char) : Option (List Char) :=
  match litAt (String.toList ".upToNextMinor") s with
  | none => none
  | some s1 =>
  match litAt (String.toList "(") (s1.dropWhile pySpace) with
  | none => none
  | some s2 =>
  match litAt (String.toList "from:") (s2.dropWhile pySpace) with
  | none => none
  | some s3 =>
  match quotedCap (s3.dropWhile pySpace) with
  | none => none
  | some (cap, s4) =>
  match litAt (String.toList ")") (s4.dropWhile pySpace) with
  | none => none
  | some _ => some cap

/-- Match `\.exact\s*\(\s*["\']([^"\']+)["\']\s*\)`. -/
def matchExactAt (s : List Char) : Option (List Char) :=
  match litAt (String.toList ".exact") s with
  | none => none
  | some s1 =>
  match litAt (String.toList "(") (s1.dropWhile pySpace) with
  | none => none
  | some s2 =>
  match quotedCap (s2.dropWhile pySpace) with
  | none => none
  | some (cap, s4) =>
  match litAt (String.toList ")") (s4.dropWhile pySpace) with
  | none => none
  | some _ => some cap

/-- The reluctant `.+?` (any character but newline, at least one) followed by
a quoted capture: expand one character at a time, trying the quoted string
after each expansion, as the lazy quantifier does. -/
def dotPlusQuoted : List Char → Option (List Char)
  | [] => none
  | c :: rest =>
    if c = '\n' then none
    else
      match quotedCap rest with
      | some (cap, _) => some cap
      | none => dotPlusQuoted rest

/-- Match `["\']([^"\']+)["\'].+?["\']([^"\']+)["\']` (the `range` pattern:
any two quoted strings separated by at least one non-newline character). -/
def matchRangeAt (s : List Char) : Option (List Char × List Char) :=
  match quotedCap s with
  | none => none
  | some (g1, s1) => (dotPlusQuoted s1).map (fun g2 => (g1, g2))

/-- The tail of the `closedRange` pattern after `...` and the opening quote:
`\s*([^"\']+)["\']`.  The greedy `\s*` backtracks just enough to leave the
`[^"\']+` capture non-empty before the first quote character. -/
def matchClosedRangeTail (rest : List Char) : Option (List Char) :=
  let run := rest.takeWhile (fun c => !isQuoteCh c)
  match rest.dropWhile (fun c => !isQuoteCh c) with
  | [] => none
  | _ :: _ =>
    if run.isEmpty then none
    else
      let sp := (run.takeWhile pySpace).length
      some (run.drop (min sp (run.length - 1)))

/-- Match `["\']([^"\']+)["\']\.\.\.["\']\s*([^"\']+)["\']`. -/
def matchClosedRangeAt (s : List Char) : Option (List Char × List Char) :=
  match quotedCap s with
  | none => none
  | some (g1, s1) =>
  match litAt (String.toList "...") s1 with
  | none => none
  | some s2 =>
    match s2 with
    | c :: s3 =>
      if isQuoteCh c then (matchClosedRangeTail s3).map (fun g2 => (g1, g2))
      else none
    | [] => none

/-- Match `["\']([^"\']+)["\']\s*\.\.\.?\s*["\']([^"\']+)["\']` (the
`rangeOperator` pattern); the optional third dot is tried greedily first. -/
def matchRangeOpAt (s : List Char) : Option (List Char × List Char) :=
  match quotedCap s with
  | none => none
  | some (g1, s1) =>
  match litAt (String.toList "..") (s1.dropWhile pySpace) with
  | none => none
  | some s2 =>
    let tail := fun (t : List Char) =>
      ((quotedCap (t.dropWhile pySpace)).map Prod.fst).map (fun g2 => (g1, g2))
    match s2 with
    | '.' :: s3 =>
      match tail s3 with
      | some r => some r
      | none => tail s2
    | _ => tail s2

/-- Match `branch:\s*["\']([^"\']+)["\']`. -/
def matchBranchAt (s : List Char) : Option (List Char) :=
  match litAt (String.toList "branch:") s with
  | none => none
  | some s1 => (quotedCap (s1.dropWhile pySpace)).map Prod.fst

/-- Match `revision:\s*["\']([^"\']+)["\']`. -/
def matchRevisionAt (s : List Char) : Option (List Char) :=
  match litAt (String.toList "revision:") s with
  | none => none
  | some s1 => (quotedCap (s1.dropWhile pySpace)).map Prod.fst

/-- `\d+` followed by a literal dot, used by the bare-version pattern. -/
def digitsDot (s : List Char) : Option (List Char × List Char) :=
  let ds := s.takeWhile isDigitCh
  if ds.isEmpty then none
  else
    match s.dropWhile isDigitCh with
    | '.' :: r => some (ds ++ ['.'], r)
    | _ => none

/-- Match `["\'](\d+\.\d+\.\d+[^"\']*)["\']` (a bare semantic-version-looking
quoted literal). -/
def matchSemverAt : List Char → Option (List Char)
  | [] => none
  | c :: rest =>
    if isQuoteCh c then
      match digitsDot rest with
      | none => none
      | some (a, r1) =>
      match digitsDot r1 with
      | none => none
      | some (b, r2) =>
        let ds := r2.takeWhile isDigitCh
        if ds.isEmpty then none
        else
          let r3 := r2.dropWhile isDigitCh
          let tail := r3.takeWhile (fun d => !isQuoteCh d)
          match r3.dropWhile (fun d => !isQuoteCh d) with
          | _ :: _ => some (a ++ b ++ ds ++ tail)
          | [] => none
    else none

/-- `int(v.split('.')[0])`, total model; the only call sites are the
`upToNextMajor`/`upToNextMinor` branches, which are unreachable because any
match of their patterns contains a match of the `from` pattern tried first
(theorem `upToNextMajor_subsumed_by_from` below). -/
def pyIntHead (v : List Char) : Nat :=
  let t := v.takeWhile (fun c => c ≠ '.')
  if t.all isDigitCh && !t.isEmpty then t.foldl (fun a c => a * 10 + (c.toNat - 48)) 0 else 0

/-- `v.split('.')`, for the `upToNextMinor` format string. -/
def splitDots (v : List Char) : List (List Char) := splitCh '.' v

/-- main.py `analyze_version_constraint`: first matching pattern wins, in the
dict's insertion order; the `match.lastindex >= 2` guard of the range
patterns always holds because both their groups are mandatory. -/
def analyze_version_constraint (decl : String) : String :=
  let s := decl.toList
  match reSearch matchFromAt s with
  | some v => "from " ++ String.mk v
  | none =>
  match reSearch matchUpToNextMajorAt s with
  | some v =>
    "from " ++ String.mk v ++ " up to next major (< " ++ toString (pyIntHead v + 1) ++ ".0.0)"
  | none =>
  match reSearch matchUpToNextMinorAt s with
  | some v =>
    let parts := splitDots v
    let nextMinor :=
      String.mk ((parts.getD 0 []) ) ++ "." ++ toString (pyIntHead (parts.getD 1 []) + 1) ++ ".0"
    "from " ++ String.mk v ++ " up to next minor (< " ++ nextMinor ++ ")"
  | none =>
  match reSearch matchExactAt s with
  | some v => "exact " ++ String.mk v
  | none =>
  match reSearch matchRangeAt s with
  | some (g1, g2) => "range " ++ String.mk g1 ++ " ... " ++ String.mk g2
  | none =>
  match reSearch matchClosedRangeAt s with
  | some (g1, g2) => "range " ++ String.mk g1 ++ " ... " ++ String.mk g2
  | none =>
  match reSearch matchRangeOpAt s with
  | some (g1, g2) => "range " ++ String.mk g1 ++ " ... " ++ String.mk g2
  | none =>
  match reSearch matchBranchAt s with
  | some v => "branch: " ++ String.mk v
  | none =>
  match reSearch matchRevisionAt s with
  | some v => "revision: " ++ String.mk (v.take 8) ++ "..."
  | none =>
  match reSearch matchSemverAt s with
  | some v => "version " ++ String.mk v
  | none => "버전 제약 조건 없음"

/-- The classification order the specification describes (exact pin first,
then upToNextMajor, upToNextMinor, `from`, the range patterns, branch,
revision, bare literal), with the source's format strings.  Modelled from
the spec for comparison with `analyze_version_constraint`. -/
def analyze_version_constraint_specOrder (decl : String) : String :=
  let s := decl.toList
  match reSearch matchExactAt s with
  | some v => "exact " ++ String.mk v
  | none =>
  match reSearch matchUpToNextMajorAt s with
  | some v =>
    "from " ++ String.mk v ++ " up to next major (< " ++ toString (pyIntHead v + 1) ++ ".0.0)"
  | none =>
  match reSearch matchUpToNextMinorAt s with
  | some v =>
    let parts := splitDots v
    let nextMinor :=
      String.mk ((parts.getD 0 []) ) ++ "." ++ toString (pyIntHead (parts.getD 1 []) + 1) ++ ".0"
    "from " ++ String.mk v ++ " up to next minor (< " ++ nextMinor ++ ")"
  | none =>
  match reSearch matchFromAt s with
  | some v => "from " ++ String.mk v
  | none =>
  match reSearch matchRangeAt s with
  | some (g1, g2) => "range " ++ String.mk g1 ++ " ... " ++ String.mk g2
  | none =>
  match reSearch matchClosedRangeAt s with
  | some (g1, g2) => "range " ++ String.mk g1 ++ " ... " ++ String.mk g2
  | none =>
  match reSearch matchRangeOpAt s with
  | some (g1, g2) => "range " ++ String.mk g1 ++ " ... " ++ String.mk g2
  | none =>
  match reSearch matchBranchAt s with
  | some v => "branch: " ++ String.mk v
  | none =>
  match reSearch matchRevisionAt s with
  | some v => "revision: " ++ String.mk (v.take 8) ++ "..."
  | none =>
  match reSearch matchSemverAt s with
  | some v => "version " ++ String.mk v
  | none => "버전 제약 조건 없음"

/-- A declaration whose constraint is given with `.upToNextMajor(from:)`. -/
def upToNextMajorDecl : String :=
  ".package(url: \"https://github.com/a/b\", .upToNextMajor(from: \"2.0.0\"))"

example :
    analyze_version_constraint (".package(url: \"https://github.com/foo/bar.git\", from: \"1.0.0\")")
      = "from 1.0.0" := by decide

example : analyze_version_constraint upToNextMajorDecl = "from 2.0.0" := by decide

example :
    analyze_version_constraint_specOrder upToNextMajorDecl
      = "from 2.0.0 up to next major (< 3.0.0)" := by decide

/-! ### The resolver (main.py `download_package_swift`)

The run-wide mutable state (`processed_repos`, `failed_repos`,
`dependency_graph`) is threaded explicitly; the per-source edge lists of the
`dependency_graph` dict are flattened into one `(source, target)` list, which
preserves multiplicity and per-source order.  The fetch capability
(`get_repo` + `get_contents` over the branch candidates, with every failure
mode collapsing into the `failed_repos` branch) is a finite table from
identifier to manifest text; `fetchLog` instruments the states at which a
fetch is attempted (the point after the processed/failed membership check).
The recursion of the source has no depth limit; the explicit `fuel` only
serves Lean's totality and the termination theorem shows the result is
independent of the fuel once it exceeds the number of fetchable
identifiers. -/

/-- Association-list lookup at the first matching key. -/
def alookup {α : Type} : List (String × α) → String → Option α
  | [], _ => none
  | (k, v) :: rest, key => if k = key then some v else alookup rest key

/-- Resolver state. -/
structure ResolveState where
  processed : List String
  failed : List String
  edges : List (String × String)
  fetchLog : List String
deriving DecidableEq

/-- The initial, empty resolver state. -/
def initResolve : ResolveState := ⟨[], [], [], []⟩

/-- The dependency loop of `download_package_swift`: for each surviving
locator record one edge and run the recursive resolution `step` on it.  The
loop is written over an abstract `step` so the resolver below stays
structurally recursive on its fuel. -/
def depsLoop (step : String → ResolveState → ResolveState) (key : String) :
    List String → ResolveState → ResolveState
  | [], st => st
  | depUrl :: rest, st =>
    let st1 :=
      match extract_repo_info depUrl with
      | none => st
      | some (dow, drep) =>
        if dow = "" ∨ drep = "" then st
        else
          step depUrl { st with edges := st.edges ++ [(key, dow ++ "/" ++ drep)] }
    depsLoop step key rest st1

/-- main.py `download_package_swift` (its Boolean return value is ignored by
every caller and is dropped). -/
def downloadFuel (store : List (String × String)) : Nat → String → ResolveState → ResolveState
  | 0, _, st => st
  | fuel + 1, url, st =>
    match extract_repo_info url with
    | none => st
    | some (owner, repo) =>
      if owner = "" ∨ repo = "" then st
      else
        let key := owner ++ "/" ++ repo
        if key ∈ st.processed ∨ key ∈ st.failed then st
        else
          let st1 : ResolveState := { st with fetchLog := st.fetchLog ++ [key] }
          match alookup store key with
          | none => { st1 with failed := key :: st1.failed }
          | some content =>
            let st2 : ResolveState := { st1 with processed := key :: st1.processed }
            depsLoop (fun u s => downloadFuel store fuel u s) key
              (extract_dependencies_from_content content) st2

/-- The distinct fetchable identifiers of the store. -/
def storeKeys (store : List (String × String)) : List String :=
  (store.map Prod.fst).dedup

/-- The number of fetchable identifiers not yet processed or failed: the
termination measure of the resolver. -/
def unburned (store : List (String × String)) (st : ResolveState) : Nat :=
  ((storeKeys store).filter (fun k => decide (k ∉ st.processed ∧ k ∉ st.failed))).length

/-- A manifest whose only dependency is the package itself. -/
def selfLoopManifest : String :=
  "dependencies: [ .package(url: \"https://github.com/a/b\", from: \"1.0.0\") ]"

example :
    (downloadFuel [("a/b", selfLoopManifest)] 2 ("https://github.com/a/b") initResolve).fetchLog
      = ["a/b"] := by decide

example :
    (downloadFuel [("a/b", dupManifest)] 3 ("https://github.com/a/b") initResolve).edges
      = [("a/b", "foo/bar"), ("a/b", "foo/bar")] := by decide

/-- The processed and failed sets only grow along the dependency loop. -/
theorem depsLoop_mono (step : String → ResolveState → ResolveState) (key : String)
    (hstep : ∀ u s, s.processed ⊆ (step u s).processed ∧ s.failed ⊆ (step u s).failed) :
    ∀ ds st, st.processed ⊆ (depsLoop step key ds st).processed ∧
      st.failed ⊆ (depsLoop step key ds st).failed := by
  intro ds
  induction ds with
  | nil => intro st; exact ⟨List.Subset.refl _, List.Subset.refl _⟩
  | cons d rest ih =>
    intro st
    simp only [depsLoop]
    split
    · exact ih st
    · split
      · exact ih st
      · constructor
        · intro x hx
          exact (ih _).1 ((hstep _ _).1 hx)
        · intro x hx
          exact (ih _).2 ((hstep _ _).2 hx)

/-- The processed and failed sets only grow along the resolver. -/
theorem downloadFuel_mono (store : List (String × String)) :
    ∀ fuel url st, st.processed ⊆ (downloadFuel store fuel url st).processed ∧
      st.failed ⊆ (downloadFuel store fuel url st).failed := by
  intro fuel
  induction fuel with
  | zero => intro url st; exact ⟨List.Subset.refl _, List.Subset.refl _⟩
  | succ f ih =>
    intro url st
    simp only [downloadFuel]
    split
    · exact ⟨List.Subset.refl _, List.Subset.refl _⟩
    · split
      · exact ⟨List.Subset.refl _, List.Subset.refl _⟩
      · split
        · exact ⟨List.Subset.refl _, List.Subset.refl _⟩
        · split
          · exact ⟨List.Subset.refl _, fun x hx => List.mem_cons_of_mem _ hx⟩
          · constructor
            · intro x hx
              exact (depsLoop_mono _ _ (fun u s => ih u s) _ _).1
                (List.mem_cons_of_mem _ hx)
            · intro x hx
              exact (depsLoop_mono _ _ (fun u s => ih u s) _ _).2 hx

/-- The fetch-attempt log never repeats an identifier, and every logged
identifier has already been settled into the processed or failed set. -/
def LogInv (st : ResolveState) : Prop :=
  st.fetchLog.Nodup ∧ ∀ k ∈ st.fetchLog, k ∈ st.processed ∨ k ∈ st.failed

theorem depsLoop_logInv (step : String → ResolveState → ResolveState) (key : String)
    (hstep : ∀ u s, LogInv s → LogInv (step u s)) :
    ∀ ds st, LogInv st → LogInv (depsLoop step key ds st) := by
  intro ds
  induction ds with
  | nil => intro st h; exact h
  | cons d rest ih =>
    intro st h
    simp only [depsLoop]
    split
    · exact ih st h
    · split
      · exact ih st h
      · exact ih _ (hstep _ _ h)

theorem downloadFuel_logInv (store : List (String × String)) :
    ∀ fuel url st, LogInv st → LogInv (downloadFuel store fuel url st) := by
  intro fuel
  induction fuel with
  | zero => intro url st h; exact h
  | succ f ih =>
    intro url st h
    simp only [downloadFuel]
    split
    · exact h
    · split
      · exact h
      · split
        · exact h
        · rename_i owner repo heq hor hmem
          have hknot : (owner ++ "/" ++ repo) ∉ st.fetchLog := by
            intro hk
            exact hmem (h.2 _ hk)
          have hnodup : (st.fetchLog ++ [owner ++ "/" ++ repo]).Nodup := by
            simp [List.nodup_append, h.1, hknot]
          split
          · refine ⟨hnodup, ?_⟩
            intro k hk
            rcases List.mem_append.1 hk with hk | hk
            · rcases h.2 k hk with hp | hf
              · exact Or.inl hp
              · exact Or.inr (List.mem_cons_of_mem _ hf)
            · simp only [List.mem_singleton] at hk
              subst hk
              exact Or.inr (List.mem_cons_self _ _)
          · refine depsLoop_logInv _ _ (fun u s hs => ih u s hs) _ _ ⟨hnodup, ?_⟩
            intro k hk
            rcases List.mem_append.1 hk with hk | hk
            · rcases h.2 k hk with hp | hf
              · exact Or.inl (List.mem_cons_of_mem _ hp)
              · exact Or.inr hf
            · simp only [List.mem_singleton] at hk
              subst hk
              exact Or.inl (List.mem_cons_self _ _)

/-- An identifier already in the processed or failed set returns immediately,
with no state change (hence no fetch and no recursion). -/
theorem downloadFuel_already_seen (store : List (String × String)) (fuel : Nat)
    (url o r : String) (st : ResolveState)
    (h1 : extract_repo_info url = some (o, r)) (h2 : ¬(o = "" ∨ r = ""))
    (h3 : o ++ "/" ++ r ∈ st.processed ∨ o ++ "/" ++ r ∈ st.failed) :
    downloadFuel store fuel url st = st := by
  cases fuel with
  | zero => rfl
  | succ f => simp [downloadFuel, h1, h2, h3]

/-- After a resolver step with positive fuel on a well-formed locator, the
locator's identifier is settled into the processed or failed set. -/
theorem downloadFuel_key_lands (store : List (String × String)) (f : Nat)
    (url o r : String) (st : ResolveState)
    (h1 : extract_repo_info url = some (o, r)) (h2 : ¬(o = "" ∨ r = "")) :
    o ++ "/" ++ r ∈ (downloadFuel store (f + 1) url st).processed ∨
      o ++ "/" ++ r ∈ (downloadFuel store (f + 1) url st).failed := by
  by_cases h3 : o ++ "/" ++ r ∈ st.processed ∨ o ++ "/" ++ r ∈ st.failed
  · rw [downloadFuel_already_seen store (f + 1) url o r st h1 h2 h3]
    exact h3
  · simp only [downloadFuel, h1, h2, if_false, h3]
    split
    · exact Or.inr (List.mem_cons_self _ _)
    · exact Or.inl ((depsLoop_mono _ _ (fun u s => downloadFuel_mono store f u s) _ _).1
        (List.mem_cons_self _ _))

theorem alookup_some_mem {α : Type} (l : List (String × α)) (k : String) (v : α)
    (h : alookup l k = some v) : k ∈ l.map Prod.fst := by
  induction l with
  | nil => simp [alookup] at h
  | cons e rest ih =>
    simp only [alookup] at h
    by_cases hk : e.1 = k
    · simp [hk]
    · rw [if_neg hk] at h
      exact List.mem_cons_of_mem _ (ih h)

theorem unburned_mono (store : List (String × String)) (st st' : ResolveState)
    (hp : st.processed ⊆ st'.processed) (hf : st.failed ⊆ st'.failed) :
    unburned store st' ≤ unburned store st := by
  refine List.Sublist.length_le (List.monotone_filter_right _ ?_)
  intro k hk
  simp only [decide_eq_true_eq] at hk ⊢
  exact ⟨fun hmem => hk.1 (hp hmem), fun hmem => hk.2 (hf hmem)⟩

theorem unburned_insert_lt (store : List (String × String)) (st st' : ResolveState)
    (key : String) (hk : key ∈ storeKeys store)
    (hp : key ∉ st.processed) (hf : key ∉ st.failed)
    (hp' : st'.processed = key :: st.processed) (hf' : st'.failed = st.failed) :
    unburned store st' < unburned store st := by
  have hsub : List.Sublist
      ((storeKeys store).filter (fun k => decide (k ∉ st'.processed ∧ k ∉ st'.failed)))
      ((storeKeys store).filter (fun k => decide (k ∉ st.processed ∧ k ∉ st.failed))) := by
    refine List.monotone_filter_right _ ?_
    intro a ha
    simp only [decide_eq_true_eq, hp', hf', List.mem_cons, not_or] at ha ⊢
    exact ⟨ha.1.2, ha.2⟩
  have hkmem : key ∈ (storeKeys store).filter
      (fun k => decide (k ∉ st.processed ∧ k ∉ st.failed)) := by
    simp [List.mem_filter, hk, hp, hf]
  have hknot : key ∉ (storeKeys store).filter
      (fun k => decide (k ∉ st'.processed ∧ k ∉ st'.failed)) := by
    simp [List.mem_filter, hp']
  refine Nat.lt_of_le_of_ne hsub.length_le ?_
  intro hlen
  exact hknot (hsub.eq_of_length hlen ▸ hkmem)

/-- Fuel congruence for the dependency loop: if one more unit of fuel does not
change the resolver on states below the measure, the whole loop agrees. -/
theorem depsLoop_agree (store : List (String × String)) (f : Nat)
    (hS : ∀ url s, unburned store s < f →
      downloadFuel store (f + 1) url s = downloadFuel store f url s) :
    ∀ (key : String) ds st, unburned store st < f →
      depsLoop (fun u s => downloadFuel store (f + 1) u s) key ds st
        = depsLoop (fun u s => downloadFuel store f u s) key ds st := by
  intro key ds
  induction ds with
  | nil => intro st h; rfl
  | cons d rest ih =>
    intro st h
    simp only [depsLoop]
    split
    · exact ih st h
    · split
      · exact ih st h
      · rename_i dow drep heq hne
        have hstep := hS d
          { st with edges := st.edges ++ [(key, dow ++ "/" ++ drep)] } h
        rw [hstep]
        refine ih _ (Nat.lt_of_le_of_lt ?_ h)
        exact unburned_mono store
          { st with edges := st.edges ++ [(key, dow ++ "/" ++ drep)] } _
          (downloadFuel_mono store f d
            { st with edges := st.edges ++ [(key, dow ++ "/" ++ drep)] }).1
          (downloadFuel_mono store f d
            { st with edges := st.edges ++ [(key, dow ++ "/" ++ drep)] }).2

/-- One extra unit of fuel is invisible once the fuel exceeds the number of
distinct fetchable identifiers still unseen. -/
theorem downloadFuel_stable_succ (store : List (String × String)) :
    ∀ f url st, unburned store st < f →
      downloadFuel store (f + 1) url st = downloadFuel store f url st := by
  intro f
  induction f with
  | zero => intro url st h; exact absurd h (Nat.not_lt_zero _)
  | succ f ih =>
    intro url st h
    cases heq : extract_repo_info url with
    | none => simp [downloadFuel, heq]
    | some pr =>
      obtain ⟨owner, repo⟩ := pr
      by_cases hne : owner = "" ∨ repo = ""
      · simp [downloadFuel, heq, hne]
      · by_cases hseen : owner ++ "/" ++ repo ∈ st.processed ∨ owner ++ "/" ++ repo ∈ st.failed
        · simp [downloadFuel, heq, hne, hseen]
        · cases hlook : alookup store (owner ++ "/" ++ repo) with
          | none => simp [downloadFuel, heq, hne, hseen, hlook]
          | some content =>
            simp only [downloadFuel, heq, hne, hseen, hlook, if_neg, if_false]
            refine depsLoop_agree store f ih _ _ _ ?_
            refine Nat.lt_of_lt_of_le
              (unburned_insert_lt store st _ (owner ++ "/" ++ repo) ?_ ?_ ?_ rfl rfl)
              (Nat.lt_succ_iff.1 h)
            · exact List.mem_dedup.2 (alookup_some_mem store _ _ hlook)
            · intro hmem; exact hseen (Or.inl hmem)
            · intro hmem; exact hseen (Or.inr hmem)

/-- Above the bound `(storeKeys store).length + 1`, the resolver's result does
not depend on the fuel at all: the recursion has terminated. -/
theorem downloadFuel_stable (store : List (String × String)) (url : String)
    (st : ResolveState) (b : Nat) (hb : unburned store st < b) :
    ∀ f, b ≤ f → downloadFuel store f url st = downloadFuel store b url st := by
  intro f
  induction f with
  | zero => intro h; cases Nat.le_zero.1 h; rfl
  | succ f ih =>
    intro h
    rcases Nat.lt_or_ge b (f + 1) with hlt | hge
    · have hbf : b ≤ f := Nat.lt_succ_iff.1 hlt
      rw [downloadFuel_stable_succ store f url st (Nat.lt_of_lt_of_le hb hbf)]
      exact ih hbf
    · have : b = f + 1 := Nat.le_antisymm h hge
      rw [this]

/-- Every edge recorded by the dependency loop has its source in the processed
set (the loop is only entered after the source was marked processed). -/
theorem depsLoop_src (step : String → ResolveState → ResolveState) (key : String)
    (hstepM : ∀ u s, s.processed ⊆ (step u s).processed ∧ s.failed ⊆ (step u s).failed)
    (hstepS : ∀ u s, ∀ e ∈ (step u s).edges, e.1 ∈ (step u s).processed ∨ e ∈ s.edges) :
    ∀ ds st, key ∈ st.processed →
      ∀ e ∈ (depsLoop step key ds st).edges,
        e.1 ∈ (depsLoop step key ds st).processed ∨ e ∈ st.edges := by
  intro ds
  induction ds with
  | nil => intro st _ e he; exact Or.inr he
  | cons d rest ih =>
    intro st hkey e
    simp only [depsLoop]
    split
    · exact ih st hkey e
    · split
      · exact ih st hkey e
      · rename_i dow drep heq hne
        intro he
        have hkey1 : key ∈ (step d
            { st with edges := st.edges ++ [(key, dow ++ "/" ++ drep)] }).processed :=
          (hstepM d { st with edges := st.edges ++ [(key, dow ++ "/" ++ drep)] }).1 hkey
        rcases ih _ hkey1 e he with h | h
        · exact Or.inl h
        · rcases hstepS d { st with edges := st.edges ++ [(key, dow ++ "/" ++ drep)] } e h
            with h2 | h2
          · exact Or.inl ((depsLoop_mono step key hstepM rest _).1 h2)
          · rcases List.mem_append.1 h2 with h3 | h3
            · exact Or.inr h3
            · simp only [List.mem_singleton] at h3
              subst h3
              exact Or.inl ((depsLoop_mono step key hstepM rest _).1 hkey1)

/-- Every edge recorded by the resolver has its source in the processed set. -/
theorem downloadFuel_src (store : List (String × String)) :
    ∀ fuel url st, ∀ e ∈ (downloadFuel store fuel url st).edges,
      e.1 ∈ (downloadFuel store fuel url st).processed ∨ e ∈ st.edges := by
  intro fuel
  induction fuel with
  | zero => intro url st e he; exact Or.inr he
  | succ f ih =>
    intro url st e
    simp only [downloadFuel]
    split
    · exact fun he => Or.inr he
    · split
      · exact fun he => Or.inr he
      · split
        · exact fun he => Or.inr he
        · split
          · exact fun he => Or.inr he
          · intro he
            rcases depsLoop_src (fun u s => downloadFuel store f u s) _
                (fun u s => downloadFuel_mono store f u s)
                (fun u s => ih u s) _ _ (List.mem_cons_self _ _) e he with h | h
            · exact Or.inl h
            · exact Or.inr h

/-- Every edge recorded by the dependency loop under sufficient fuel has its
target settled into the processed or failed set. -/
theorem depsLoop_tgt (store : List (String × String)) (g : Nat)
    (hA : ∀ url st, unburned store st < g →
      ∀ e ∈ (downloadFuel store g url st).edges,
        e.2 ∈ (downloadFuel store g url st).processed ∨
        e.2 ∈ (downloadFuel store g url st).failed ∨ e ∈ st.edges) :
    ∀ (key : String) ds st, unburned store st < g →
      ∀ e ∈ (depsLoop (fun u s => downloadFuel store g u s) key ds st).edges,
        e.2 ∈ (depsLoop (fun u s => downloadFuel store g u s) key ds st).processed ∨
        e.2 ∈ (depsLoop (fun u s => downloadFuel store g u s) key ds st).failed ∨
        e ∈ st.edges := by
  intro key ds
  induction ds with
  | nil => intro st _ e he; exact Or.inr (Or.inr he)
  | cons d rest ih =>
    intro st hu e
    simp only [depsLoop]
    split
    · exact ih st hu e
    · split
      · exact ih st hu e
      · rename_i dow drep heq hne
        intro he
        have hu' : unburned store
            { st with edges := st.edges ++ [(key, dow ++ "/" ++ drep)] } < g := hu
        have hu1 : unburned store (downloadFuel store g d
            { st with edges := st.edges ++ [(key, dow ++ "/" ++ drep)] }) < g :=
          Nat.lt_of_le_of_lt (unburned_mono store _ _
            (downloadFuel_mono store g d _).1 (downloadFuel_mono store g d _).2) hu'
        have hmonoLoop := depsLoop_mono (fun u s => downloadFuel store g u s) key
          (fun u s => downloadFuel_mono store g u s) rest
          (downloadFuel store g d { st with edges := st.edges ++ [(key, dow ++ "/" ++ drep)] })
        rcases ih _ hu1 e he with h | h | h
        · exact Or.inl h
        · exact Or.inr (Or.inl h)
        · rcases hA d { st with edges := st.edges ++ [(key, dow ++ "/" ++ drep)] } hu' e h
            with h2 | h2 | h2
          · exact Or.inl (hmonoLoop.1 h2)
          · exact Or.inr (Or.inl (hmonoLoop.2 h2))
          · rcases List.mem_append.1 h2 with h3 | h3
            · exact Or.inr (Or.inr h3)
            · simp only [List.mem_singleton] at h3
              subst h3
              obtain ⟨g', rfl⟩ : ∃ g', g = g' + 1 := by
                cases g with
                | zero => exact absurd hu (Nat.not_lt_zero _)
                | succ g' => exact ⟨g', rfl⟩
              rcases downloadFuel_key_lands store g' d dow drep
                  { st with edges := st.edges ++ [(key, dow ++ "/" ++ drep)] } heq hne
                with h4 | h4
              · exact Or.inl (hmonoLoop.1 h4)
              · exact Or.inr (Or.inl (hmonoLoop.2 h4))

/-- Every edge recorded by the resolver under sufficient fuel has its target
settled into the processed or failed set. -/
theorem downloadFuel_tgt (store : List (String × String)) :
    ∀ fuel url st, unburned store st < fuel →
      ∀ e ∈ (downloadFuel store fuel url st).edges,
        e.2 ∈ (downloadFuel store fuel url st).processed ∨
        e.2 ∈ (downloadFuel store fuel url st).failed ∨ e ∈ st.edges := by
  intro fuel
  induction fuel with
  | zero => intro url st hu; exact absurd hu (Nat.not_lt_zero _)
  | succ f ih =>
    intro url st hu e
    cases heq : extract_repo_info url with
    | none =>
      simp only [downloadFuel, heq]
      exact fun he => Or.inr (Or.inr he)
    | some pr =>
      obtain ⟨owner, repo⟩ := pr
      by_cases hne : owner = "" ∨ repo = ""
      · simp only [downloadFuel, heq, if_pos hne]
        exact fun he => Or.inr (Or.inr he)
      · by_cases hseen : owner ++ "/" ++ repo ∈ st.processed ∨ owner ++ "/" ++ repo ∈ st.failed
        · simp only [downloadFuel, heq, if_neg hne, if_pos hseen]
          exact fun he => Or.inr (Or.inr he)
        · cases hlook : alookup store (owner ++ "/" ++ repo) with
          | none =>
            simp only [downloadFuel, heq, if_neg hne, if_neg hseen, hlook]
            exact fun he => Or.inr (Or.inr he)
          | some content =>
            simp only [downloadFuel, heq, if_neg hne, if_neg hseen, hlook]
            intro he
            have hu2 : unburned store
                { st with processed := (owner ++ "/" ++ repo) :: st.processed,
                          fetchLog := st.fetchLog ++ [owner ++ "/" ++ repo] } < f := by
              refine Nat.lt_of_lt_of_le
                (unburned_insert_lt store st _ (owner ++ "/" ++ repo) ?_ ?_ ?_ rfl rfl)
                (Nat.lt_succ_iff.1 hu)
              · exact List.mem_dedup.2 (alookup_some_mem store _ _ hlook)
              · intro hmem; exact hseen (Or.inl hmem)
              · intro hmem; exact hseen (Or.inr hmem)
            rcases depsLoop_tgt store f (fun u s hus => ih u s hus) _ _ _ hu2 e he
              with h | h | h
            · exact Or.inl h
            · exact Or.inr (Or.inl h)
            · exact Or.inr (Or.inr h)

/-- C1: for every seed locator and every fetch table — cycles and self-loops
included — the recursive resolution terminates (its result is fuel-independent
once the fuel exceeds the number of distinct fetchable identifiers), the
fetch-attempt log never repeats an identifier, an identifier already in the
processed (visited) or failed set returns immediately with no state change,
and on a fresh identifier with a fetched manifest the identifier is added to
the processed set in the very state from which its dependencies are then
recursively resolved. -/
theorem resolver_terminates_and_fetches_at_most_once
    (store : List (String × String)) (fuel : Nat) (url : String)
    (st : ResolveState) (o r content : String) :
    (downloadFuel store fuel url initResolve).fetchLog.Nodup
    ∧ (extract_repo_info url = some (o, r) → ¬(o = "" ∨ r = "") →
        o ++ "/" ++ r ∈ st.processed ∨ o ++ "/" ++ r ∈ st.failed →
        downloadFuel store fuel url st = st)
    ∧ ((storeKeys store).length < fuel →
        downloadFuel store fuel url initResolve
          = downloadFuel store ((storeKeys store).length + 1) url initResolve)
    ∧ (extract_repo_info url = some (o, r) → ¬(o = "" ∨ r = "") →
        o ++ "/" ++ r ∉ st.processed → o ++ "/" ++ r ∉ st.failed →
        alookup store (o ++ "/" ++ r) = some content →
        downloadFuel store (fuel + 1) url st
          = depsLoop (fun u s => downloadFuel store fuel u s) (o ++ "/" ++ r)
              (extract_dependencies_from_content content)
              { st with processed := (o ++ "/" ++ r) :: st.processed,
                        fetchLog := st.fetchLog ++ [o ++ "/" ++ r] }
        ∧ o ++ "/" ++ r ∈ (o ++ "/" ++ r) :: st.processed) := by
  refine ⟨?_, ?_, ?_, ?_⟩
  · exact (downloadFuel_logInv store fuel url initResolve
      ⟨List.nodup_nil, fun k hk => absurd hk (List.not_mem_nil k)⟩).1
  · intro h1 h2 h3
    exact downloadFuel_already_seen store fuel url o r st h1 h2 h3
  · intro hf
    have hb : unburned store initResolve < (storeKeys store).length + 1 :=
      Nat.lt_succ_of_le (List.length_filter_le _ _)
    rw [downloadFuel_stable store url initResolve ((storeKeys store).length + 1) hb fuel
      (Nat.succ_le_of_lt hf)]
  · intro h1 h2 h3 h4 h5
    constructor
    · simp only [downloadFuel, h1, if_neg h2, if_neg (not_or.2 ⟨h3, h4⟩), h5]
    · exact List.mem_cons_self _ _

/-- Witness for C1 at a one-package store whose manifest declares the package
itself (a self-loop). -/
theorem resolver_terminates_witness :
    (downloadFuel [("a/b", selfLoopManifest)] 2 ("https://github.com/a/b")
      initResolve).fetchLog.Nodup
    ∧ downloadFuel [("a/b", selfLoopManifest)] 2 ("https://github.com/a/b")
        ⟨["a/b"], [], [], []⟩ = ⟨["a/b"], [], [], []⟩
    ∧ downloadFuel [("a/b", selfLoopManifest)] 5 ("https://github.com/a/b") initResolve
        = downloadFuel [("a/b", selfLoopManifest)] 2 ("https://github.com/a/b") initResolve
    ∧ downloadFuel [("a/b", selfLoopManifest)] 1 ("https://github.com/a/b") initResolve
        = depsLoop (fun u s => downloadFuel [("a/b", selfLoopManifest)] 0 u s) ("a/b")
            (extract_dependencies_from_content selfLoopManifest)
            { initResolve with processed := ["a/b"], fetchLog := ["a/b"] } := by
  refine ⟨?_, ?_, ?_, ?_⟩
  · exact (resolver_terminates_and_fetches_at_most_once
      [("a/b", selfLoopManifest)] 2 ("https://github.com/a/b")
      initResolve "a" "b" selfLoopManifest).1
  · exact (resolver_terminates_and_fetches_at_most_once
      [("a/b", selfLoopManifest)] 2 ("https://github.com/a/b")
      ⟨["a/b"], [], [], []⟩ "a" "b" selfLoopManifest).2.1
      (by decide) (by decide) (by decide)
  · exact (resolver_terminates_and_fetches_at_most_once
      [("a/b", selfLoopManifest)] 5 ("https://github.com/a/b")
      initResolve "a" "b" selfLoopManifest).2.2.1 (by decide)
  · exact ((resolver_terminates_and_fetches_at_most_once
      [("a/b", selfLoopManifest)] 0 ("https://github.com/a/b")
      initResolve "a" "b" selfLoopManifest).2.2.2
      (by decide) (by decide) (by decide) (by decide) (by decide)).1

/-! ### The analyzer (dependency_graph_analyzer.py)

`self.graph` and `self.reverse_graph` are `defaultdict(list)`; they are
modeled as association lists in insertion order, with `ddGet` modelling
`d[k]` (which INSERTS an empty entry for a missing key) and `ddAppend`
modelling `d[k].append(v)`.  `self.nodes` is a Python set, modeled as a
duplicate-free list in insertion order (no claim depends on set iteration
order beyond what the spec states "up to starting node"). -/

/-- `defaultdict(list).__getitem__`: returns the stored list, inserting an
empty entry when the key is missing. -/
def ddGet (d : List (String × List String)) (k : String) :
    List String × List (String × List String) :=
  match alookup d k with
  | some v => (v, d)
  | none => ([], d ++ [(k, [])])

/-- `d[k].append(v)` on a `defaultdict(list)`. -/
def ddAppend (d : List (String × List String)) (k v : String) :
    List (String × List String) :=
  match alookup d k with
  | some _ => d.map (fun e => if e.1 = k then (e.1, e.2 ++ [v]) else e)
  | none => d ++ [(k, [v])]

/-- The adjacency dict viewed as a total function (missing key reads as the
default `[]`); `ddGet` leaves this view unchanged. -/
def ddFun (d : List (String × List String)) (k : String) : List String :=
  (alookup d k).getD []

/-- The edges of an adjacency dict, flattened. -/
def edgesOf (d : List (String × List String)) : List (String × String) :=
  d.flatMap (fun e => e.2.map (fun t => (e.1, t)))

/-- The analyzer's graph model state. -/
structure AnalyzerState where
  graph : List (String × List String)
  reverse_graph : List (String × List String)
  nodes : List String
  package_info : List (String × ParseResult)
deriving DecidableEq

/-- The analyzer right after `__init__`. -/
def initAnalyzer : AnalyzerState := ⟨[], [], [], []⟩

/-- Dict assignment `d[k] = v` (overwrite or append). -/
def assocSet (d : List (String × ParseResult)) (k : String) (v : ParseResult) :
    List (String × ParseResult) :=
  match alookup d k with
  | some _ => d.map (fun e => if e.1 = k then (k, v) else e)
  | none => d ++ [(k, v)]

/-- A package directory entry: no `Package.swift` at all, an unreadable one,
or one with the given text. -/
inductive PkgFile
  | absent
  | unreadable
  | withContent (text : String)
deriving DecidableEq

/-- `package_dir.replace('_', '/')`. -/
def underscoresToSlashes (s : String) : String :=
  String.mk (s.toList.map (fun c => if c = '_' then '/' else c))

/-- The per-package body of `scan_directory_structure`: record the parse
result, add the node, and add one forward and one reverse edge per
dependency (each dependency also becoming a node). -/
def scanParsed (a : AnalyzerState) (repoKey : String) (info : ParseResult) :
    AnalyzerState :=
  let a1 : AnalyzerState :=
    { a with package_info := assocSet a.package_info repoKey info,
             nodes := setInsert a.nodes repoKey }
  info.dependencies.foldl
    (fun acc dep =>
      { acc with graph := ddAppend acc.graph repoKey dep,
                 reverse_graph := ddAppend acc.reverse_graph dep repoKey,
                 nodes := setInsert acc.nodes dep })
    a1

/-- One package directory of the scan: skipped when `Package.swift` is
absent, otherwise parsed (an unreadable file is the parser's `except`
branch). -/
def scanPackage (a : AnalyzerState) (dirName : String) (file : PkgFile) :
    AnalyzerState :=
  match file with
  | .absent => a
  | .unreadable => scanParsed a (underscoresToSlashes dirName) (parse_package_swift none)
  | .withContent t => scanParsed a (underscoresToSlashes dirName) (parse_package_swift (some t))

/-- dependency_graph_analyzer.py `scan_directory_structure` over an abstract
directory tree: root directories, each holding package directories. -/
def scan_directory_structure (dirs : List (String × List (String × PkgFile)))
    (a : AnalyzerState) : AnalyzerState :=
  dirs.foldl (fun acc root => root.2.foldl (fun a2 p => scanPackage a2 p.1 p.2) acc) a

/-- Both adjacency dicts only relate identifiers that are in the node set. -/
def EdgeNodesInv (a : AnalyzerState) : Prop :=
  (∀ e ∈ edgesOf a.graph, e.1 ∈ a.nodes ∧ e.2 ∈ a.nodes)
  ∧ (∀ e ∈ edgesOf a.reverse_graph, e.1 ∈ a.nodes ∧ e.2 ∈ a.nodes)

theorem mem_setInsert_self (l : List String) (x : String) : x ∈ setInsert l x := by
  by_cases h : x ∈ l
  · simp [setInsert, h]
  · simp [setInsert, h]

theorem setInsert_subset (l : List String) (x : String) : l ⊆ setInsert l x := by
  by_cases h : x ∈ l
  · simp [setInsert, h]
  · intro y hy
    simp [setInsert, h, List.mem_append, hy]

theorem mem_edgesOf_ddAppend (d : List (String × List String)) (k v : String)
    (e : String × String) (he : e ∈ edgesOf (ddAppend d k v)) :
    e ∈ edgesOf d ∨ e = (k, v) := by
  unfold ddAppend at he
  rcases hlook : alookup d k with _ | w
  · rw [hlook] at he
    simp only [edgesOf, List.flatMap_append] at he
    rcases List.mem_append.1 he with h | h
    · exact Or.inl h
    · simp only [List.flatMap_cons, List.flatMap_nil, List.map_cons, List.map_nil,
        List.append_nil, List.mem_singleton] at h
      exact Or.inr h
  · rw [hlook] at he
    simp only [edgesOf, List.mem_flatMap, List.mem_map] at he
    obtain ⟨ent, hent, t, ht, rfl⟩ := he
    obtain ⟨e0, he0, hdef⟩ := hent
    by_cases hk : e0.1 = k
    · rw [if_pos hk] at hdef
      subst hdef
      rcases List.mem_append.1 ht with h | h
      · exact Or.inl (by
          simp only [edgesOf, List.mem_flatMap, List.mem_map]
          exact ⟨e0, he0, t, h, rfl⟩)
      · simp only [List.mem_singleton] at h
        subst h
        exact Or.inr (by rw [hk])
    · rw [if_neg hk] at hdef
      subst hdef
      exact Or.inl (by
        simp only [edgesOf, List.mem_flatMap, List.mem_map]
        exact ⟨e0, he0, t, ht, rfl⟩)

theorem scanDeps_fold_inv (repoKey : String) (deps : List String) :
    ∀ a1 : AnalyzerState, EdgeNodesInv a1 → repoKey ∈ a1.nodes →
      EdgeNodesInv (deps.foldl
        (fun acc dep =>
          { acc with graph := ddAppend acc.graph repoKey dep,
                     reverse_graph := ddAppend acc.reverse_graph dep repoKey,
                     nodes := setInsert acc.nodes dep })
        a1) := by
  induction deps with
  | nil => intro a1 hinv _; exact hinv
  | cons dep rest ih =>
    intro a1 hinv hkey
    simp only [List.foldl_cons]
    refine ih _ ⟨?_, ?_⟩ (setInsert_subset _ _ hkey)
    · intro e he
      rcases mem_edgesOf_ddAppend _ _ _ e he with h2 | h2
      · exact ⟨setInsert_subset _ _ (hinv.1 e h2).1, setInsert_subset _ _ (hinv.1 e h2).2⟩
      · subst h2
        exact ⟨setInsert_subset _ _ hkey, mem_setInsert_self _ _⟩
    · intro e he
      rcases mem_edgesOf_ddAppend _ _ _ e he with h2 | h2
      · exact ⟨setInsert_subset _ _ (hinv.2 e h2).1, setInsert_subset _ _ (hinv.2 e h2).2⟩
      · subst h2
        exact ⟨mem_setInsert_self _ _, setInsert_subset _ _ hkey⟩

theorem scanParsed_edgeInv (a : AnalyzerState) (repoKey : String) (info : ParseResult)
    (h : EdgeNodesInv a) : EdgeNodesInv (scanParsed a repoKey info) := by
  refine scanDeps_fold_inv repoKey info.dependencies
    { a with package_info := assocSet a.package_info repoKey info,
             nodes := setInsert a.nodes repoKey } ⟨?_, ?_⟩ (mem_setInsert_self _ _)
  · intro e he
    exact ⟨setInsert_subset _ _ (h.1 e he).1, setInsert_subset _ _ (h.1 e he).2⟩
  · intro e he
    exact ⟨setInsert_subset _ _ (h.2 e he).1, setInsert_subset _ _ (h.2 e he).2⟩

theorem scanPackage_edgeInv (a : AnalyzerState) (dirName : String) (file : PkgFile)
    (h : EdgeNodesInv a) : EdgeNodesInv (scanPackage a dirName file) := by
  cases file with
  | absent => exact h
  | unreadable => exact scanParsed_edgeInv a _ _ h
  | withContent t => exact scanParsed_edgeInv a _ _ h

theorem scan_edgeInv (dirs : List (String × List (String × PkgFile)))
    (a : AnalyzerState) (h : EdgeNodesInv a) :
    EdgeNodesInv (scan_directory_structure dirs a) := by
  unfold scan_directory_structure
  induction dirs generalizing a with
  | nil => exact h
  | cons root rest ih =>
    simp only [List.foldl_cons]
    refine ih _ ?_
    clear ih
    induction root.2 generalizing a with
    | nil => exact h
    | cons p ps ihp =>
      simp only [List.foldl_cons]
      exact ihp _ (scanPackage_edgeInv a p.1 p.2 h)

/-- C7: in every graph produced by construction, edges never dangle.  For the
directory re-scan, every edge of the forward and of the reverse adjacency has
both endpoints in the node set.  For the resolver traversal (whose node set,
per the data model, is the set of attempted identifiers `processed ∪ failed`
together with the edge endpoints), under sufficient fuel every recorded
edge's source is a processed identifier and its target is a processed or
failed identifier. -/
theorem constructed_graphs_no_dangling_edges
    (dirs : List (String × List (String × PkgFile)))
    (store : List (String × String)) (fuel : Nat) (url : String) :
    (∀ e ∈ edgesOf (scan_directory_structure dirs initAnalyzer).graph,
        e.1 ∈ (scan_directory_structure dirs initAnalyzer).nodes ∧
        e.2 ∈ (scan_directory_structure dirs initAnalyzer).nodes)
    ∧ (∀ e ∈ edgesOf (scan_directory_structure dirs initAnalyzer).reverse_graph,
        e.1 ∈ (scan_directory_structure dirs initAnalyzer).nodes ∧
        e.2 ∈ (scan_directory_structure dirs initAnalyzer).nodes)
    ∧ ((storeKeys store).length < fuel →
        ∀ e ∈ (downloadFuel store fuel url initResolve).edges,
          e.1 ∈ (downloadFuel store fuel url initResolve).processed ∧
          (e.2 ∈ (downloadFuel store fuel url initResolve).processed ∨
           e.2 ∈ (downloadFuel store fuel url initResolve).failed)) := by
  have hscan := scan_edgeInv dirs initAnalyzer
    ⟨fun e he => absurd he (List.not_mem_nil e), fun e he => absurd he (List.not_mem_nil e)⟩
  refine ⟨hscan.1, hscan.2, ?_⟩
  intro hfuel e he
  constructor
  · rcases downloadFuel_src store fuel url initResolve e he with h | h
    · exact h
    · exact absurd h (List.not_mem_nil e)
  · have hu : unburned store initResolve < fuel :=
      Nat.lt_of_le_of_lt (List.length_filter_le _ _) hfuel
    rcases downloadFuel_tgt store fuel url initResolve hu e he with h | h | h
    · exact Or.inl h
    · exact Or.inr h
    · exact absurd h (List.not_mem_nil e)

/-- Witness for C7: a one-root scan and a one-package store. -/
theorem no_dangling_edges_witness :
    (("a/b", "foo/bar") ∈ edgesOf (scan_directory_structure
        [("a_b", [("a_b", PkgFile.withContent dupManifest)])] initAnalyzer).graph)
    ∧ ("a/b" ∈ (scan_directory_structure
        [("a_b", [("a_b", PkgFile.withContent dupManifest)])] initAnalyzer).nodes ∧
       "foo/bar" ∈ (scan_directory_structure
        [("a_b", [("a_b", PkgFile.withContent dupManifest)])] initAnalyzer).nodes)
    ∧ ("a/b" ∈ (downloadFuel [("a/b", dupManifest)] 3 ("https://github.com/a/b")
          initResolve).processed ∧
        ("foo/bar" ∈ (downloadFuel [("a/b", dupManifest)] 3 ("https://github.com/a/b")
          initResolve).processed ∨
         "foo/bar" ∈ (downloadFuel [("a/b", dupManifest)] 3 ("https://github.com/a/b")
          initResolve).failed)) := by
  have hmem : ("a/b", "foo/bar") ∈ edgesOf (scan_directory_structure
      [("a_b", [("a_b", PkgFile.withContent dupManifest)])] initAnalyzer).graph := by
    decide
  have hedge : ("a/b", "foo/bar") ∈ (downloadFuel [("a/b", dupManifest)] 3
      ("https://github.com/a/b") initResolve).edges := by
    decide
  refine ⟨hmem, ?_, ?_⟩
  · exact (constructed_graphs_no_dangling_edges
      [("a_b", [("a_b", PkgFile.withContent dupManifest)])]
      [("a/b", dupManifest)] 3 ("https://github.com/a/b")).1 _ hmem
  · exact (constructed_graphs_no_dangling_edges
      [("a_b", [("a_b", PkgFile.withContent dupManifest)])]
      [("a/b", dupManifest)] 3 ("https://github.com/a/b")).2.2 (by decide) _ hedge

/-! ### Supporting lemmas about the scanners -/

theorem foldl_setInsert_nodup (l : List String) :
    ∀ acc : List String, acc.Nodup → (l.foldl setInsert acc).Nodup := by
  induction l with
  | nil => intro acc h; exact h
  | cons x rest ih =>
    intro acc h
    simp only [List.foldl_cons]
    refine ih _ ?_
    by_cases hx : x ∈ acc
    · simpa [setInsert, hx] using h
    · simp [setInsert, hx, List.nodup_append, h]

theorem litAt_suffix : ∀ (p s r : List Char), litAt p s = some r → r <:+ s := by
  intro p
  induction p with
  | nil =>
    intro s r h
    simp only [litAt, Option.some.injEq] at h
    subst h
    exact List.suffix_rfl
  | cons p ps ih =>
    intro s r h
    cases s with
    | nil => simp [litAt] at h
    | cons c cs =>
      simp only [litAt] at h
      by_cases hc : c = p
      · rw [if_pos hc] at h
        exact (ih cs r h).trans (List.suffix_cons c cs)
      · rw [if_neg hc] at h
        cases h

theorem reSearch_some_of_suffix {α : Type} (m : List Char → Option α) :
    ∀ (l t : List Char), t <:+ l → ∀ x, m t = some x → ∃ y, reSearch m l = some y := by
  intro l
  induction l with
  | nil =>
    intro t ht x hx
    have := List.eq_nil_of_suffix_nil ht
    subst this
    exact ⟨x, by simpa [reSearch] using hx⟩
  | cons c cs ih =>
    intro t ht x hx
    cases hm : m (c :: cs) with
    | some y => exact ⟨y, by simp [reSearch, hm]⟩
    | none =>
      rcases List.suffix_cons_iff.1 ht with h | h
      · exfalso
        rw [h, hm] at hx
        cases hx
      · obtain ⟨y, hy⟩ := ih t h x hx
        exact ⟨y, by simp [reSearch, hm, hy]⟩

/-- Any match of the `upToNextMajor` pattern contains, at an inner suffix, a
match of the `from` pattern with the same capture: the `from` branch shadows
the `upToNextMajor` branch entirely. -/
theorem matchUpToNextMajorAt_from (s v : List Char)
    (h : matchUpToNextMajorAt s = some v) :
    ∃ t, t <:+ s ∧ matchFromAt t = some v := by
  unfold matchUpToNextMajorAt at h
  cases h1 : litAt (String.toList ".upToNextMajor") s with
  | none => simp only [h1] at h; exact Option.noConfusion h
  | some s1 =>
  simp only [h1] at h
  cases h2 : litAt (String.toList "(") (s1.dropWhile pySpace) with
  | none => simp only [h2] at h; exact Option.noConfusion h
  | some s2 =>
  simp only [h2] at h
  cases h3 : litAt (String.toList "from:") (s2.dropWhile pySpace) with
  | none => simp only [h3] at h; exact Option.noConfusion h
  | some s3 =>
  simp only [h3] at h
  cases h4 : quotedCap (s3.dropWhile pySpace) with
  | none => simp only [h4] at h; exact Option.noConfusion h
  | some pr =>
  obtain ⟨cap, s4⟩ := pr
  simp only [h4] at h
  cases h5 : litAt (String.toList ")") (s4.dropWhile pySpace) with
  | none => simp only [h5] at h; exact Option.noConfusion h
  | some s5 =>
  simp only [h5] at h
  simp only [Option.some.injEq] at h
  subst h
  refine ⟨s2.dropWhile pySpace, ?_, ?_⟩
  · exact ((((List.dropWhile_suffix _).trans (litAt_suffix _ _ _ h2)).trans
      (List.dropWhile_suffix _)).trans (litAt_suffix _ _ _ h1))
  · simp only [matchFromAt, h3, h4, Option.map]

/-- Likewise for the `upToNextMinor` pattern. -/
theorem matchUpToNextMinorAt_from (s v : List Char)
    (h : matchUpToNextMinorAt s = some v) :
    ∃ t, t <:+ s ∧ matchFromAt t = some v := by
  unfold matchUpToNextMinorAt at h
  cases h1 : litAt (String.toList ".upToNextMinor") s with
  | none => simp only [h1] at h; exact Option.noConfusion h
  | some s1 =>
  simp only [h1] at h
  cases h2 : litAt (String.toList "(") (s1.dropWhile pySpace) with
  | none => simp only [h2] at h; exact Option.noConfusion h
  | some s2 =>
  simp only [h2] at h
  cases h3 : litAt (String.toList "from:") (s2.dropWhile pySpace) with
  | none => simp only [h3] at h; exact Option.noConfusion h
  | some s3 =>
  simp only [h3] at h
  cases h4 : quotedCap (s3.dropWhile pySpace) with
  | none => simp only [h4] at h; exact Option.noConfusion h
  | some pr =>
  obtain ⟨cap, s4⟩ := pr
  simp only [h4] at h
  cases h5 : litAt (String.toList ")") (s4.dropWhile pySpace) with
  | none => simp only [h5] at h; exact Option.noConfusion h
  | some s5 =>
  simp only [h5] at h
  simp only [Option.some.injEq] at h
  subst h
  refine ⟨s2.dropWhile pySpace, ?_, ?_⟩
  · exact ((((List.dropWhile_suffix _).trans (litAt_suffix _ _ _ h2)).trans
      (List.dropWhile_suffix _)).trans (litAt_suffix _ _ _ h1))
  · simp only [matchFromAt, h3, h4, Option.map]

theorem reSearch_some_exists {α : Type} (m : List Char → Option α) :
    ∀ (l : List Char) (x : α), reSearch m l = some x → ∃ t, t <:+ l ∧ m t = some x := by
  intro l
  induction l with
  | nil =>
    intro x h
    exact ⟨[], List.suffix_rfl, by simpa [reSearch] using h⟩
  | cons c cs ih =>
    intro x h
    cases hm : m (c :: cs) with
    | some y =>
      have hyx : y = x := by
        simp only [reSearch, hm, Option.some.injEq] at h
        exact h
      subst hyx
      exact ⟨c :: cs, List.suffix_rfl, hm⟩
    | none =>
      simp only [reSearch, hm] at h
      obtain ⟨t, ht, hx⟩ := ih x h
      exact ⟨t, ht.trans (List.suffix_cons c cs), hx⟩

/-! ### C5: version-constraint classification priority -/

/-- C5 counterexample: a declaration carrying `.upToNextMajor(from:)` is
classified by the `from` branch (the code tries `from` first), not by the
`upToNextMajor` branch the specified priority order would select. -/
theorem version_priority_counterexample :
    analyze_version_constraint upToNextMajorDecl = "from 2.0.0"
    ∧ analyze_version_constraint_specOrder upToNextMajorDecl
        = "from 2.0.0 up to next major (< 3.0.0)"
    ∧ analyze_version_constraint upToNextMajorDecl
        ≠ analyze_version_constraint_specOrder upToNextMajorDecl := by
  refine ⟨by decide, by decide, by decide⟩

/-- C5 amended: the classifier tries `from` first (so a `from:` match wins
over everything, and the `upToNextMajor`/`upToNextMinor` branches are
unreachable because any of their matches contains a `from:` match), then
`exact`, the range patterns, `branch`, `revision`, a bare
semantic-version literal, and otherwise reports no constraint. -/
theorem version_constraint_classification (s : String) (v : List Char) :
    analyze_version_constraint
        (".package(url: \"https://github.com/foo/bar.git\", from: \"1.0.0\")")
      = "from 1.0.0"
    ∧ (reSearch matchFromAt s.toList = some v →
        analyze_version_constraint s = "from " ++ String.mk v)
    ∧ (reSearch matchUpToNextMajorAt s.toList = some v →
        ∃ u, reSearch matchFromAt s.toList = some u)
    ∧ (reSearch matchUpToNextMinorAt s.toList = some v →
        ∃ u, reSearch matchFromAt s.toList = some u)
    ∧ (reSearch matchFromAt s.toList = none → reSearch matchExactAt s.toList = some v →
        analyze_version_constraint s = "exact " ++ String.mk v)
    ∧ (reSearch matchFromAt s.toList = none → reSearch matchExactAt s.toList = none →
        reSearch matchRangeAt s.toList = none →
        reSearch matchClosedRangeAt s.toList = none →
        reSearch matchRangeOpAt s.toList = none →
        reSearch matchBranchAt s.toList = none →
        reSearch matchRevisionAt s.toList = none →
        reSearch matchSemverAt s.toList = none →
        analyze_version_constraint s = "버전 제약 조건 없음") := by
  have hmaj : ∀ w, reSearch matchUpToNextMajorAt s.toList = some w →
      ∃ u, reSearch matchFromAt s.toList = some u := by
    intro w hw
    obtain ⟨t, ht, hm⟩ := reSearch_some_exists _ _ _ hw
    obtain ⟨t1, ht1, hm1⟩ := matchUpToNextMajorAt_from t w hm
    exact reSearch_some_of_suffix _ _ t1 (ht1.trans ht) w hm1
  have hmin : ∀ w, reSearch matchUpToNextMinorAt s.toList = some w →
      ∃ u, reSearch matchFromAt s.toList = some u := by
    intro w hw
    obtain ⟨t, ht, hm⟩ := reSearch_some_exists _ _ _ hw
    obtain ⟨t1, ht1, hm1⟩ := matchUpToNextMinorAt_from t w hm
    exact reSearch_some_of_suffix _ _ t1 (ht1.trans ht) w hm1
  have hmajNone : reSearch matchFromAt s.toList = none →
      reSearch matchUpToNextMajorAt s.toList = none := by
    intro hnone
    cases hw : reSearch matchUpToNextMajorAt s.toList with
    | none => rfl
    | some w =>
      obtain ⟨u, hu⟩ := hmaj w hw
      rw [hnone] at hu
      cases hu
  have hminNone : reSearch matchFromAt s.toList = none →
      reSearch matchUpToNextMinorAt s.toList = none := by
    intro hnone
    cases hw : reSearch matchUpToNextMinorAt s.toList with
    | none => rfl
    | some w =>
      obtain ⟨u, hu⟩ := hmin w hw
      rw [hnone] at hu
      cases hu
  refine ⟨by decide, ?_, fun h => hmaj v h, fun h => hmin v h, ?_, ?_⟩
  · intro h
    have h' : reSearch matchFromAt s.data = some v := h
    simp [analyze_version_constraint, h']
  · intro h1 h2
    have h1' : reSearch matchFromAt s.data = none := h1
    have hmaj' : reSearch matchUpToNextMajorAt s.data = none := hmajNone h1
    have hmin' : reSearch matchUpToNextMinorAt s.data = none := hminNone h1
    have h2' : reSearch matchExactAt s.data = some v := h2
    simp [analyze_version_constraint, h1', hmaj', hmin', h2']
  · intro h1 h2 h3 h4 h5 h6 h7 h8
    have h1' : reSearch matchFromAt s.data = none := h1
    have hmaj' : reSearch matchUpToNextMajorAt s.data = none := hmajNone h1
    have hmin' : reSearch matchUpToNextMinorAt s.data = none := hminNone h1
    have h2' : reSearch matchExactAt s.data = none := h2
    have h3' : reSearch matchRangeAt s.data = none := h3
    have h4' : reSearch matchClosedRangeAt s.data = none := h4
    have h5' : reSearch matchRangeOpAt s.data = none := h5
    have h6' : reSearch matchBranchAt s.data = none := h6
    have h7' : reSearch matchRevisionAt s.data = none := h7
    have h8' : reSearch matchSemverAt s.data = none := h8
    simp [analyze_version_constraint, h1', hmaj', hmin', h2', h3', h4', h5', h6', h7', h8']

/-- Witness for C5 at the `.upToNextMajor(from:)` declaration. -/
theorem version_constraint_classification_witness :
    analyze_version_constraint upToNextMajorDecl
      = "from " ++ String.mk ['2', '.', '0', '.', '0'] := by
  exact (version_constraint_classification upToNextMajorDecl
    ['2', '.', '0', '.', '0']).2.1 (by decide)

/-! ### C2: deduplication levels of the two parsers -/

/-- C2 counterexample: within one manifest holding two textually different
locators that normalize to the same identifier, `parse_package_swift`
(the re-scan parser the claim cites) collapses them to a single dependency
and the scanned graph holds a single edge, not one edge per declaration. -/
theorem dedup_counterexample :
    extract_dependencies_from_content dupManifest
      = ["https://github.com/foo/bar.git", "https://github.com/foo/bar"]
    ∧ (parse_package_swift (some dupManifest)).dependencies = ["foo/bar"]
    ∧ edgesOf (scan_directory_structure
        [("a_b", [("a_b", PkgFile.withContent dupManifest)])] initAnalyzer).graph
      = [("a/b", "foo/bar")] := by
  refine ⟨by decide, by decide, by decide⟩

/-- C2 amended: main.py's `extract_dependencies_from_content` deduplicates at
the locator-string level (verbatim-identical declarations collapse; the two
textually different locators above are both retained and the resolver records
one edge per retained locator), while `parse_package_swift` normalizes each
locator to an identifier before deduplicating, so such locators collapse to
one dependency; both parsers return duplicate-free lists. -/
theorem dedup_levels (c : String) :
    (extract_dependencies_from_content c).Nodup
    ∧ (parse_package_swift (some c)).dependencies.Nodup
    ∧ (downloadFuel [("a/b", dupManifest)] 3 ("https://github.com/a/b") initResolve).edges
        = [("a/b", "foo/bar"), ("a/b", "foo/bar")] := by
  refine ⟨?_, ?_, by decide⟩
  · cases h : findDepsSection c with
    | none => simp [extract_dependencies_from_content, h]
    | some sec =>
      simp only [extract_dependencies_from_content, h]
      exact foldl_setInsert_nodup _ [] List.nodup_nil
  · cases h : findDepsSection c with
    | none => simp [parse_package_swift, h]
    | some sec =>
      simp only [parse_package_swift, h]
      exact foldl_setInsert_nodup _ [] List.nodup_nil

/-! ### C8: error semantics of the manifest parser -/

/-- C8: an unreadable/undecodable manifest yields `parsed=false`
(`has_package_swift := false`) with an empty dependency list and a normal
return; readable text always yields `parsed=true`, and text without a
`dependencies:` section yields `parsed=true` with an empty dependency list,
so `parsed=false` never encodes "zero dependencies found". -/
theorem parse_package_swift_error_semantics (c : String) :
    ((parse_package_swift none).has_package_swift = false
      ∧ (parse_package_swift none).dependencies = [])
    ∧ (parse_package_swift (some c)).has_package_swift = true
    ∧ (findDepsSection c = none →
        parse_package_swift (some c)
          = ⟨[], (reSearch matchNameAt c.toList).map String.mk, true⟩) := by
  refine ⟨⟨rfl, rfl⟩, rfl, ?_⟩
  intro h
  simp [parse_package_swift, h]

/-- Witness for C8 on a manifest without a `dependencies:` section. -/
theorem parse_package_swift_error_semantics_witness :
    findDepsSection ("import PackageDescription") = none
    ∧ parse_package_swift (some ("import PackageDescription")) = ⟨[], none, true⟩ := by
  refine ⟨by decide, ?_⟩
  have h := (parse_package_swift_error_semantics ("import PackageDescription")).2.2 (by decide)
  rw [h]
  decide

/-! ### C9: the identifier normalizer -/

theorem dropWhile_head_false {p : Char → Bool} :
    ∀ (l : List Char) (c : Char) (t : List Char), l.dropWhile p = c :: t → p c = false := by
  intro l
  induction l with
  | nil => intro c t h; cases h
  | cons a l ih =>
    intro c t h
    rw [List.dropWhile_cons] at h
    by_cases hp : p a
    · rw [if_pos hp] at h
      exact ih c t h
    · rw [if_neg hp] at h
      injection h with h1 h2
      subst h1
      simp only [Bool.not_eq_true] at hp
      exact hp

theorem stripSlashes_isPrefix (u : List Char) :
    (stripSlashes u) <+: (u.dropWhile (fun c => c = '/')) := by
  unfold stripSlashes
  have h := List.dropWhile_suffix (l := (u.dropWhile (fun c => c = '/')).reverse)
    (p := fun c => c = '/')
  have h2 := List.reverse_prefix.mpr h
  rwa [List.reverse_reverse] at h2

theorem splitCh_cons_ne (sep c : Char) (cs : List Char) (h : ¬ c = sep) :
    ∃ h1 t, splitCh sep (c :: cs) = (c :: h1) :: t := by
  cases hr : splitCh sep cs with
  | nil => exact ⟨[], [], by simp [splitCh, hr, h]⟩
  | cons hh tt => exact ⟨hh, tt, by simp [splitCh, hr, h]⟩

/-- After stripping slashes at both ends, the first path segment is never
empty when there are at least two segments. -/
theorem pathSegments_head_ne_nil (url : String) (p0 p1 : List Char)
    (rest : List (List Char)) (h : pathSegments url = p0 :: p1 :: rest) : p0 ≠ [] := by
  unfold pathSegments splitSlash at h
  cases hs : stripSlashes (pyUrlPath (stripGitL url.toList)) with
  | nil =>
    rw [hs] at h
    simp only [splitCh] at h
    injection h with h1 h2
    cases h2
  | cons c t =>
    rw [hs] at h
    have hpre := stripSlashes_isPrefix (pyUrlPath (stripGitL url.toList))
    rw [hs] at hpre
    obtain ⟨r, hr⟩ := hpre
    have hc : ((fun x => decide (x = '/')) c) = false :=
      dropWhile_head_false _ c (t ++ r) hr.symm
    have hc' : ¬ c = '/' := by
      simpa using hc
    obtain ⟨h1, t1, hsp⟩ := splitCh_cons_ne '/' c t hc'
    rw [hsp] at h
    injection h with hA hB
    rw [← hA]
    intro hcontr
    cases hcontr

theorem stripGitL_append (l : List Char) :
    stripGitL (l ++ (String.toList ".git")) = l := by
  unfold stripGitL
  rw [if_pos]
  · have hlen : (l ++ (String.toList ".git")).length = l.length + 4 := by
      simp [List.length_append]
    rw [hlen]
    simp only [Nat.add_sub_cancel]
    exact List.take_left l (String.toList ".git")
  · exact List.isSuffixOf_iff_suffix.2 (List.suffix_append l _)

/-- C9 counterexample: a locator whose path has an empty second segment
(`/a//b`) still yields an identifier (`"a/"`), where the claim requires the
normalizer to return none for a locator with an empty segment among the
first two. -/
theorem identifier_normalizer_counterexample :
    extract_repo_info_from_url ("https://github.com/a//b") = some ("a/")
    ∧ pathSegments ("https://github.com/a//b") = [['a'], [], ['b']] := by
  refine ⟨by decide, by decide⟩

/-- C9 amended: the normalizer strips a trailing `.git`, parses the URL path,
and returns `segments[0] ++ "/" ++ segments[1]` exactly when the stripped
path splits into at least two segments; the first segment is then necessarily
non-empty but the second may be empty.  On fewer than two segments it returns
none rather than raising, and main.py's pair-returning variant agrees. -/
theorem extract_repo_info_characterization (url : String) :
    (∀ s, extract_repo_info_from_url url = some s ↔
      ∃ p0 p1 rest, pathSegments url = p0 :: p1 :: rest
        ∧ s = String.mk p0 ++ "/" ++ String.mk p1)
    ∧ (extract_repo_info_from_url url = none ↔ (pathSegments url).length < 2)
    ∧ (∀ p0 p1 rest, pathSegments url = p0 :: p1 :: rest → p0 ≠ [])
    ∧ extract_repo_info_from_url url
        = (extract_repo_info url).map (fun p => p.1 ++ "/" ++ p.2)
    ∧ (∀ l : List Char, stripGitL (l ++ (String.toList ".git")) = l) := by
  refine ⟨?_, ?_, fun p0 p1 rest h => pathSegments_head_ne_nil url p0 p1 rest h, ?_,
    stripGitL_append⟩
  · intro s
    cases hseg : pathSegments url with
    | nil => simp [extract_repo_info_from_url, hseg]
    | cons p0 tl =>
      cases tl with
      | nil => simp [extract_repo_info_from_url, hseg]
      | cons p1 rest =>
        simp only [extract_repo_info_from_url, hseg, Option.some.injEq]
        constructor
        · intro hsome
          exact ⟨p0, p1, rest, rfl, hsome.symm⟩
        · rintro ⟨q0, q1, qrest, hq, hs⟩
          injection hq with hA hB
          injection hB with hB1 hB2
          subst hA
          subst hB1
          exact hs.symm
  · cases hseg : pathSegments url with
    | nil => simp [extract_repo_info_from_url, hseg]
    | cons p0 tl =>
      cases tl with
      | nil => simp [extract_repo_info_from_url, hseg]
      | cons p1 rest =>
        simp [extract_repo_info_from_url, hseg]
  · cases hseg : pathSegments url with
    | nil => simp [extract_repo_info_from_url, extract_repo_info, hseg]
    | cons p0 tl =>
      cases tl with
      | nil => simp [extract_repo_info_from_url, extract_repo_info, hseg]
      | cons p1 rest => simp [extract_repo_info_from_url, extract_repo_info, hseg]

/-- Witness for C9 at a two-segment locator. -/
theorem extract_repo_info_characterization_witness :
    (['f', 'o', 'o'] : List Char) ≠ []
    ∧ extract_repo_info_from_url ("https://github.com/foo/bar") = some ("foo/bar") := by
  constructor
  · exact (extract_repo_info_characterization ("https://github.com/foo/bar")).2.2.1
      ['f', 'o', 'o'] ['b', 'a', 'r'] [] (by decide)
  · exact ((extract_repo_info_characterization ("https://github.com/foo/bar")).1
      ("foo/bar")).2 ⟨['f', 'o', 'o'], ['b', 'a', 'r'], [], by decide, by decide⟩

/-! ### Graph metrics (dependency_graph_analyzer.py `calculate_graph_metrics`)

The comprehensions `[node for node in nodes if len(d[node]) == 0]` read the
defaultdicts through `__getitem__` and therefore INSERT an empty entry for
every missing key; the breadth-first depth computation does the same on
`self.graph`.  The threaded dicts are part of each result below. -/

/-- The statistics block. -/
structure Stats where
  total_nodes : Nat
  total_edges : Nat
  root_packages : Nat
  leaf_packages : Nat
  max_depth : Nat
  circular_dependencies : List (List String)
deriving DecidableEq

/-- `[node for node in nodes if len(d[node]) == 0]`, threading the
defaultdict. -/
def zeroDegreeNodes (nodes : List String) (d : List (String × List String)) :
    List String × List (String × List String) :=
  nodes.foldl
    (fun acc n =>
      let p := ddGet acc.2 n
      (if p.1.length = 0 then acc.1 ++ [n] else acc.1, p.2))
    ([], d)

/-- Fuel dominating the potential of the breadth-first loop (queue length
plus one dequeue and one out-degree worth of enqueues for every node that
can ever be enqueued); the loop always drains its queue within it. -/
def bfsFuel (g : List (String × List String)) (start : String) : Nat :=
  2 + (((start :: g.flatMap (fun e => e.2)).dedup).map
        (fun u => 1 + (ddFun g u).length)).sum

/-- The `while queue:` loop of `calculate_depth_from_node`: pop left, skip
already-visited nodes, otherwise mark visited, record the depth, and enqueue
unvisited successors at depth + 1. -/
def bfsLoop : Nat → List (String × List String) → List (String × Nat) →
    List String → Nat → Nat × List (String × List String)
  | _, g, [], _, maxd => (maxd, g)
  | 0, g, _ :: _, _, maxd => (maxd, g)
  | f + 1, g, (n, dep) :: rest, visited, maxd =>
    if n ∈ visited then bfsLoop f g rest visited maxd
    else
      let visited' := visited ++ [n]
      let p := ddGet g n
      bfsLoop f p.2
        (rest ++ (p.1.filter (fun d => decide (d ∉ visited'))).map (fun d => (d, dep + 1)))
        visited' (max maxd dep)

/-- `calculate_depth_from_node`: 0 when the start key is absent (tested with
`not in`, which does not insert), otherwise the breadth-first loop. -/
def calculate_depth_from_node (g : List (String × List String)) (start : String) :
    Nat × List (String × List String) :=
  match alookup g start with
  | none => (0, g)
  | some _ => bfsLoop (bfsFuel g start) g [(start, 0)] [] 0

/-- State of the cycle detector: the globally visited set, the
recursion-stack set, and the accumulated cycles. -/
structure CycState where
  visited : List String
  rec_stack : List String
  cycles : List (List String)
deriving DecidableEq

/-- `path.index(node)`: index of the first occurrence. -/
def idxOfStr (x : String) : List String → Nat
  | [] => 0
  | y :: ys => if y = x then 0 else idxOfStr x ys + 1

/-- The `for neighbor in ...: dfs(neighbor, path.copy())` loop, over an
abstract recursive step. -/
def cycLoop (step : String → CycState → CycState) : List String → CycState → CycState
  | [], st => st
  | nb :: rest, st => cycLoop step rest (step nb st)

/-- The `dfs` of `detect_circular_dependencies`: a node already on the
recursion stack reports the suffix of the path from its first occurrence plus
the node itself; a visited node returns; otherwise the node is marked visited
and pushed on the stack, the neighbors (`graph.get(node, [])`, which does not
insert) are explored with an extended path copy, and the node is removed from
the stack.  The fuel only serves totality: the recursion depth is bounded by
the number of distinct reachable nodes because each non-returning call marks
a fresh node visited. -/
def dfsCyc (g : List (String × List String)) : Nat → String → List String → CycState → CycState
  | 0, _, _, st => st
  | f + 1, node, path, st =>
    if node ∈ st.rec_stack then
      { st with cycles := st.cycles ++ [path.drop (idxOfStr node path) ++ [node]] }
    else if node ∈ st.visited then st
    else
      let st1 : CycState := { st with visited := st.visited ++ [node],
                                      rec_stack := st.rec_stack ++ [node] }
      let st2 := cycLoop (fun nb s => dfsCyc g f nb (path ++ [node]) s)
        ((alookup g node).getD []) st1
      { st2 with rec_stack := st2.rec_stack.filter (fun y => decide (y ≠ node)) }

/-- Fuel bound for the cycle search. -/
def cycFuel (g : List (String × List String)) (nodes : List String) : Nat :=
  1 + ((nodes ++ g.flatMap (fun e => e.2)).dedup).length

/-- `detect_circular_dependencies`: a fresh depth-first search from every
not-yet-visited node. -/
def detect_circular_dependencies (g : List (String × List String))
    (nodes : List String) : List (List String) :=
  (nodes.foldl
    (fun st n => if n ∈ st.visited then st else dfsCyc g (cycFuel g nodes) n [] st)
    ⟨[], [], []⟩).cycles

/-- `calculate_graph_metrics`, threading every defaultdict access in source
order: node and edge totals, the root list (reading `reverse_graph`), the
leaf list (reading `graph`), the per-root breadth-first depths, and the
cycle search on the resulting graph dict. -/
def calculate_graph_metrics (a : AnalyzerState) : Stats × AnalyzerState :=
  let total_nodes := a.nodes.length
  let total_edges := (a.graph.map (fun e => e.2.length)).sum
  let roots := zeroDegreeNodes a.nodes a.reverse_graph
  let leaves := zeroDegreeNodes a.nodes a.graph
  let depthFold := roots.1.foldl
    (fun (acc : Nat × List (String × List String)) root =>
      let p := calculate_depth_from_node acc.2 root
      (max acc.1 p.1, p.2))
    (0, leaves.2)
  let cycles := detect_circular_dependencies depthFold.2 a.nodes
  (⟨total_nodes, total_edges, roots.1.length, leaves.1.length, depthFold.1, cycles⟩,
   { a with graph := depthFold.2, reverse_graph := roots.2 })

example :
    detect_circular_dependencies [("a", ["b"]), ("b", ["c"]), ("c", ["a"])] ["a", "b", "c"]
      = [["a", "b", "c", "a"]] := by decide

example :
    (calculate_graph_metrics (scan_directory_structure
        [("a_b", [("a_b", PkgFile.withContent dupManifest)])] initAnalyzer)).2.graph
      = [("a/b", ["foo/bar"]), ("foo/bar", [])] := by decide

example :
    (calculate_graph_metrics (scan_directory_structure
        [("a_b", [("a_b", PkgFile.withContent dupManifest)])] initAnalyzer)).1.max_depth
      = 1 := by decide

/-! ### C6: what the metrics computation does to the graph model -/

/-- `d` differs from `d0` at most by inserted empty default entries. -/
def DictExtends (d0 d : List (String × List String)) : Prop :=
  ∀ k, alookup d k = alookup d0 k ∨ (alookup d0 k = none ∧ alookup d k = some [])

theorem dictExtends_refl (d0 : List (String × List String)) : DictExtends d0 d0 :=
  fun _ => Or.inl rfl

theorem alookup_append {α : Type} (d1 d2 : List (String × α)) (k : String) :
    alookup (d1 ++ d2) k =
      match alookup d1 k with
      | some v => some v
      | none => alookup d2 k := by
  induction d1 with
  | nil => simp [alookup]
  | cons e rest ih =>
    obtain ⟨k1, v1⟩ := e
    by_cases hk : k1 = k
    · simp [alookup, hk]
    · simp [alookup, hk, ih]

theorem ddGet_extends (d0 d : List (String × List String)) (k : String)
    (h : DictExtends d0 d) : DictExtends d0 (ddGet d k).2 := by
  unfold ddGet
  cases hl : alookup d k with
  | some v => exact h
  | none =>
    intro k'
    show alookup (d ++ [(k, [])]) k' = _ ∨ _
    rw [alookup_append]
    by_cases hk : k' = k
    · subst hk
      rw [hl]
      have hd0 : alookup d0 k' = none := by
        rcases h k' with h2 | h2
        · rw [← h2, hl]
        · exact absurd hl (by rw [h2.2]; exact fun hcon => Option.noConfusion hcon)
      refine Or.inr ⟨hd0, ?_⟩
      simp [alookup]
    · have hone : alookup ([(k, [])] : List (String × List String)) k' = none := by
        have hk2 : ¬ k = k' := fun hcon => hk hcon.symm
        simp [alookup, hk2]
      cases hd : alookup d k' with
      | some w =>
        rcases h k' with h2 | h2
        · rw [hd] at h2
          exact Or.inl h2
        · rw [hd] at h2
          exact Or.inr ⟨h2.1, h2.2⟩
      | none =>
        rw [hone]
        rcases h k' with h2 | h2
        · rw [hd] at h2
          exact Or.inl h2
        · rw [hd] at h2
          exact Or.inr ⟨h2.1, h2.2⟩

theorem dictExtends_ddFun (d0 d : List (String × List String))
    (h : DictExtends d0 d) (k : String) : ddFun d k = ddFun d0 k := by
  unfold ddFun
  rcases h k with h2 | h2
  · rw [h2]
  · rw [h2.1, h2.2]
    rfl

theorem zeroDegree_fold_extends (d0 : List (String × List String)) (nodes : List String) :
    ∀ acc : List String × List (String × List String), DictExtends d0 acc.2 →
      DictExtends d0 (nodes.foldl
        (fun acc n =>
          let p := ddGet acc.2 n
          (if p.1.length = 0 then acc.1 ++ [n] else acc.1, p.2)) acc).2 := by
  induction nodes with
  | nil => intro acc h; exact h
  | cons n rest ih =>
    intro acc h
    simp only [List.foldl_cons]
    exact ih _ (ddGet_extends d0 acc.2 n h)

theorem bfsLoop_extends (d0 : List (String × List String)) :
    ∀ (f : Nat) g q visited maxd, DictExtends d0 g →
      DictExtends d0 (bfsLoop f g q visited maxd).2 := by
  intro f
  induction f with
  | zero =>
    intro g q visited maxd h
    cases q with
    | nil => exact h
    | cons e rest => exact h
  | succ f ih =>
    intro g q visited maxd h
    cases q with
    | nil => exact h
    | cons e rest =>
      obtain ⟨n, dep⟩ := e
      simp only [bfsLoop]
      split
      · exact ih _ _ _ _ h
      · exact ih _ _ _ _ (ddGet_extends d0 g n h)

theorem calculate_depth_extends (d0 g : List (String × List String)) (start : String)
    (h : DictExtends d0 g) : DictExtends d0 (calculate_depth_from_node g start).2 := by
  unfold calculate_depth_from_node
  cases hl : alookup g start with
  | none => exact h
  | some v => exact bfsLoop_extends d0 _ _ _ _ _ h

theorem depth_fold_extends (d0 : List (String × List String)) (roots : List String) :
    ∀ acc : Nat × List (String × List String), DictExtends d0 acc.2 →
      DictExtends d0 (roots.foldl
        (fun (acc : Nat × List (String × List String)) root =>
          let p := calculate_depth_from_node acc.2 root
          (max acc.1 p.1, p.2)) acc).2 := by
  induction roots with
  | nil => intro acc h; exact h
  | cons root rest ih =>
    intro acc h
    simp only [List.foldl_cons]
    exact ih _ (calculate_depth_extends d0 acc.2 root h)

theorem metrics_graph_extends (a : AnalyzerState) :
    DictExtends a.graph (calculate_graph_metrics a).2.graph
    ∧ DictExtends a.reverse_graph (calculate_graph_metrics a).2.reverse_graph := by
  constructor
  · exact depth_fold_extends a.graph _ _
      (zeroDegree_fold_extends a.graph a.nodes ([], a.graph) (dictExtends_refl _))
  · exact zeroDegree_fold_extends a.reverse_graph a.nodes ([], a.reverse_graph)
      (dictExtends_refl _)

/-- C6 counterexample: after one constructed graph's metrics run, the
forward and reverse adjacency dicts are NOT identical to what construction
built — the comprehensions' defaultdict reads inserted empty entries. -/
theorem metrics_mutates_dicts_counterexample :
    (calculate_graph_metrics (scan_directory_structure
        [("a_b", [("a_b", PkgFile.withContent dupManifest)])] initAnalyzer)).2.graph
      ≠ (scan_directory_structure
        [("a_b", [("a_b", PkgFile.withContent dupManifest)])] initAnalyzer).graph
    ∧ (calculate_graph_metrics (scan_directory_structure
        [("a_b", [("a_b", PkgFile.withContent dupManifest)])] initAnalyzer)).2.reverse_graph
      ≠ (scan_directory_structure
        [("a_b", [("a_b", PkgFile.withContent dupManifest)])] initAnalyzer).reverse_graph := by
  refine ⟨by decide, by decide⟩

/-- C6 amended: computing the metrics leaves the node set, the package-info
table, and the adjacency maps AS FUNCTIONS (key to stored-or-default list)
unchanged: every existing entry keeps its exact list and a missing key can
only gain an explicit empty-list entry (defaultdict autovivification).  The
underlying dict objects are not identical before and after (see the
counterexample). -/
theorem analyzer_metrics_read_only_up_to_defaults (a : AnalyzerState)
    (k : String) (v : List String) :
    (calculate_graph_metrics a).2.nodes = a.nodes
    ∧ (calculate_graph_metrics a).2.package_info = a.package_info
    ∧ ddFun (calculate_graph_metrics a).2.graph k = ddFun a.graph k
    ∧ ddFun (calculate_graph_metrics a).2.reverse_graph k = ddFun a.reverse_graph k
    ∧ (alookup a.graph k = some v →
        alookup (calculate_graph_metrics a).2.graph k = some v)
    ∧ (alookup a.graph k = none →
        alookup (calculate_graph_metrics a).2.graph k = none ∨
        alookup (calculate_graph_metrics a).2.graph k = some [])
    ∧ (alookup a.reverse_graph k = some v →
        alookup (calculate_graph_metrics a).2.reverse_graph k = some v)
    ∧ (alookup a.reverse_graph k = none →
        alookup (calculate_graph_metrics a).2.reverse_graph k = none ∨
        alookup (calculate_graph_metrics a).2.reverse_graph k = some []) := by
  obtain ⟨hg, hr⟩ := metrics_graph_extends a
  refine ⟨rfl, rfl, dictExtends_ddFun _ _ hg k, dictExtends_ddFun _ _ hr k, ?_, ?_, ?_, ?_⟩
  · intro hsome
    rcases hg k with h2 | h2
    · rw [h2, hsome]
    · rw [hsome] at h2
      exact absurd h2.1 (fun hcon => Option.noConfusion hcon)
  · intro hnone
    rcases hg k with h2 | h2
    · exact Or.inl (by rw [h2, hnone])
    · exact Or.inr h2.2
  · intro hsome
    rcases hr k with h2 | h2
    · rw [h2, hsome]
    · rw [hsome] at h2
      exact absurd h2.1 (fun hcon => Option.noConfusion hcon)
  · intro hnone
    rcases hr k with h2 | h2
    · exact Or.inl (by rw [h2, hnone])
    · exact Or.inr h2.2

/-- Witness for C6 on a constructed two-node graph. -/
theorem analyzer_metrics_read_only_witness :
    ddFun (calculate_graph_metrics (scan_directory_structure
        [("a_b", [("a_b", PkgFile.withContent dupManifest)])] initAnalyzer)).2.graph
        ("foo/bar")
      = ddFun (scan_directory_structure
        [("a_b", [("a_b", PkgFile.withContent dupManifest)])] initAnalyzer).graph
        ("foo/bar")
    ∧ alookup (calculate_graph_metrics (scan_directory_structure
        [("a_b", [("a_b", PkgFile.withContent dupManifest)])] initAnalyzer)).2.graph
        ("foo/bar") = some [] := by
  constructor
  · exact (analyzer_metrics_read_only_up_to_defaults (scan_directory_structure
      [("a_b", [("a_b", PkgFile.withContent dupManifest)])] initAnalyzer)
      ("foo/bar") []).2.2.1
  · exact Or.resolve_left
      ((analyzer_metrics_read_only_up_to_defaults (scan_directory_structure
        [("a_b", [("a_b", PkgFile.withContent dupManifest)])] initAnalyzer)
        ("foo/bar") []).2.2.2.2.2.1 (by decide)) (by decide)

/-! ### C3: the shape of a reported cycle -/

theorem idxOfStr_spec (x : String) :
    ∀ path : List String, x ∈ path →
      x ∉ path.take (idxOfStr x path)
      ∧ (path.drop (idxOfStr x path)).head? = some x
      ∧ path.take (idxOfStr x path) ++ path.drop (idxOfStr x path) = path := by
  intro path
  induction path with
  | nil => intro h; cases h
  | cons y ys ih =>
    intro h
    by_cases hy : y = x
    · subst hy
      simp [idxOfStr]
    · have hmem : x ∈ ys := by
        rcases List.mem_cons.1 h with h2 | h2
        · exact absurd h2.symm hy
        · exact h2
      obtain ⟨h1, h2, h3⟩ := ih hmem
      refine ⟨?_, ?_, ?_⟩
      · simp only [idxOfStr, if_neg hy, List.take_succ_cons, List.mem_cons]
        intro hcon
        rcases hcon with hcon | hcon
        · exact hy hcon.symm
        · exact h1 hcon
      · simpa [idxOfStr, if_neg hy] using h2
      · simp [idxOfStr, if_neg hy]

/-- C3: a node met while on the recursion stack makes the detector report the
suffix of the current path from that node's first occurrence with the node
appended, and on the triangle `a->b, b->c, c->a` (nodes iterated in that
order) the reported cycles are exactly `[[a, b, c, a]]`. -/
theorem cycle_report_shape (g : List (String × List String)) (f : Nat)
    (node : String) (path : List String) (st : CycState) :
    (node ∈ st.rec_stack →
      dfsCyc g (f + 1) node path st
        = { st with cycles := st.cycles ++ [path.drop (idxOfStr node path) ++ [node]] })
    ∧ (node ∈ path →
        node ∉ path.take (idxOfStr node path)
        ∧ (path.drop (idxOfStr node path)).head? = some node
        ∧ path.take (idxOfStr node path) ++ path.drop (idxOfStr node path) = path)
    ∧ detect_circular_dependencies [("a", ["b"]), ("b", ["c"]), ("c", ["a"])]
        ["a", "b", "c"] = [["a", "b", "c", "a"]] := by
  refine ⟨?_, idxOfStr_spec node path, by decide⟩
  intro h
  simp [dfsCyc, h]

/-- Witness for C3: one step of the detector on an active path. -/
theorem cycle_report_shape_witness :
    dfsCyc [("a", ["b"]), ("b", ["c"]), ("c", ["a"])] 1 "a" ["a", "b"]
        ⟨[], ["a"], []⟩
      = ⟨[], ["a"], [["a", "b", "a"]]⟩ := by
  have h := (cycle_report_shape [("a", ["b"]), ("b", ["c"]), ("c", ["a"])] 0 "a"
    ["a", "b"] ⟨[], ["a"], []⟩).1 (by decide)
  rw [h]
  decide

/-! ### C10: every reported cycle is a closed walk -/

/-- A closed walk of the forward adjacency: length at least two, equal first
and last element, every consecutive pair an edge. -/
def ClosedWalk (g : List (String × List String)) (c : List String) : Prop :=
  2 ≤ c.length ∧ c.head? = c.getLast? ∧ List.Chain' (fun x y => y ∈ ddFun g x) c

theorem cycLoop_rec_stack (step : String → CycState → CycState)
    (hstep : ∀ nb s, (step nb s).rec_stack = s.rec_stack) :
    ∀ nbs st, (cycLoop step nbs st).rec_stack = st.rec_stack := by
  intro nbs
  induction nbs with
  | nil => intro st; rfl
  | cons nb rest ih =>
    intro st
    simp only [cycLoop]
    rw [ih, hstep]

/-- The recursion-stack set is restored on return from every call. -/
theorem dfsCyc_rec_stack (g : List (String × List String)) :
    ∀ (f : Nat) (node : String) (path : List String) (st : CycState),
      (dfsCyc g f node path st).rec_stack = st.rec_stack := by
  intro f
  induction f with
  | zero => intro node path st; rfl
  | succ f ih =>
    intro node path st
    simp only [dfsCyc]
    split
    · rfl
    · split
      · rfl
      · rename_i h1 h2
        have hloop := cycLoop_rec_stack (fun nb s => dfsCyc g f nb (path ++ [node]) s)
          (fun nb s => ih nb (path ++ [node]) s)
          ((alookup g node).getD [])
          { st with visited := st.visited ++ [node], rec_stack := st.rec_stack ++ [node] }
        rw [hloop]
        rw [List.filter_append]
        have hfl : st.rec_stack.filter (fun y => decide (y ≠ node)) = st.rec_stack := by
          refine List.filter_eq_self.2 ?_
          intro x hx
          simp only [decide_eq_true_eq]
          intro hcon
          subst hcon
          exact h1 hx
        have hfr : ([node] : List String).filter (fun y => decide (y ≠ node)) = [] := by
          simp
        rw [hfl, hfr, List.append_nil]

/-- The cycles accumulated by the neighbor loop stay closed walks, given
that the underlying recursive step preserves them. -/
theorem cycLoop_cycles_good (g : List (String × List String)) (f : Nat)
    (path' : List String)
    (hstep : ∀ (node : String) (s : CycState),
      (∀ p, path'.getLast? = some p → node ∈ ddFun g p) →
      List.Chain' (fun x y => y ∈ ddFun g x) path' →
      (∀ x, x ∈ s.rec_stack ↔ x ∈ path') →
      (∀ c ∈ s.cycles, ClosedWalk g c) →
      ∀ c ∈ (dfsCyc g f node path' s).cycles, ClosedWalk g c) :
    ∀ nbs : List String,
      (∀ nb ∈ nbs, ∀ p, path'.getLast? = some p → nb ∈ ddFun g p) →
      List.Chain' (fun x y => y ∈ ddFun g x) path' →
      ∀ S : CycState, (∀ x, x ∈ S.rec_stack ↔ x ∈ path') →
        (∀ c ∈ S.cycles, ClosedWalk g c) →
        ∀ c ∈ (cycLoop (fun nb s => dfsCyc g f nb path' s) nbs S).cycles,
          ClosedWalk g c := by
  intro nbs
  induction nbs with
  | nil => intro _ _ S _ hgd c hc; exact hgd c hc
  | cons nb rest ihn =>
    intro hln hch S hstk hgd
    simp only [cycLoop]
    refine ihn (fun q hq => hln q (List.mem_cons_of_mem _ hq)) hch _ ?_ ?_
    · intro x
      rw [dfsCyc_rec_stack]
      exact hstk x
    · exact hstep nb S (hln nb (List.mem_cons_self _ _)) hch hstk hgd

/-- Every cycle accumulated by one `dfs` call is a closed walk, given that the
current path is a chain, the node extends it by an edge (when the path is
non-empty), and the recursion stack holds exactly the path's elements. -/
theorem dfsCyc_cycles_good (g : List (String × List String)) :
    ∀ (f : Nat) (node : String) (path : List String) (st : CycState),
      (∀ p, path.getLast? = some p → node ∈ ddFun g p) →
      List.Chain' (fun x y => y ∈ ddFun g x) path →
      (∀ x, x ∈ st.rec_stack ↔ x ∈ path) →
      (∀ c ∈ st.cycles, ClosedWalk g c) →
      ∀ c ∈ (dfsCyc g f node path st).cycles, ClosedWalk g c := by
  intro f
  induction f with
  | zero => intro node path st _ _ _ hgood c hc; exact hgood c hc
  | succ f ih =>
    intro node path st hlink hchain hstack hgood
    have hchain1 : List.Chain' (fun x y => y ∈ ddFun g x) (path ++ [node]) := by
      refine List.chain'_append.2 ⟨hchain, List.chain'_singleton node, ?_⟩
      intro x hx y hy
      simp only [List.head?_cons, Option.mem_def, Option.some.injEq] at hy
      subst hy
      exact hlink x hx
    simp only [dfsCyc]
    split
    · rename_i hrec
      intro c hc
      rcases List.mem_append.1 hc with hc | hc
      · exact hgood c hc
      · simp only [List.mem_singleton] at hc
        subst hc
        have hmem : node ∈ path := (hstack node).1 hrec
        obtain ⟨_, hhead, _⟩ := idxOfStr_spec node path hmem
        obtain ⟨t, hdrop⟩ : ∃ t, path.drop (idxOfStr node path) = node :: t := by
          cases hd : path.drop (idxOfStr node path) with
          | nil => rw [hd] at hhead; cases hhead
          | cons a t =>
            rw [hd] at hhead
            simp only [List.head?_cons, Option.some.injEq] at hhead
            subst hhead
            exact ⟨t, rfl⟩
        have hsplit : path ++ [node]
            = path.take (idxOfStr node path) ++ ((node :: t) ++ [node]) := by
          rw [← hdrop, ← List.append_assoc, List.take_append_drop]
        have hchainSuf : List.Chain' (fun x y => y ∈ ddFun g x) ((node :: t) ++ [node]) := by
          rw [hsplit] at hchain1
          exact (List.chain'_append.1 hchain1).2.1
        rw [hdrop]
        refine ⟨?_, ?_, hchainSuf⟩
        · simp only [List.length_append, List.length_cons, List.length_singleton]
          omega
        · rw [List.getLast?_concat, List.cons_append, List.head?_cons]
    · split
      · intro c hc; exact hgood c hc
      · rename_i hrec hvis
        intro c hc
        have hstack1 : ∀ x,
            x ∈ (CycState.mk (st.visited ++ [node]) (st.rec_stack ++ [node])
              st.cycles).rec_stack ↔ x ∈ path ++ [node] := by
          intro x
          simp only [List.mem_append, List.mem_singleton]
          constructor
          · rintro (hx | hx)
            · exact Or.inl ((hstack x).1 hx)
            · exact Or.inr hx
          · rintro (hx | hx)
            · exact Or.inl ((hstack x).2 hx)
            · exact Or.inr hx
        have hlinknb : ∀ nb ∈ (alookup g node).getD [],
            ∀ p, (path ++ [node]).getLast? = some p → nb ∈ ddFun g p := by
          intro nb hnb p hp
          rw [List.getLast?_concat] at hp
          injection hp with hq
          subst hq
          exact hnb
        exact cycLoop_cycles_good g f (path ++ [node])
          (fun nd s hl hch hstk hgd => ih nd (path ++ [node]) s hl hch hstk hgd)
          ((alookup g node).getD []) hlinknb hchain1
          (CycState.mk (st.visited ++ [node]) (st.rec_stack ++ [node]) st.cycles)
          hstack1 hgood c hc

/-- C10: every cycle the detector reports is a closed walk in the forward
adjacency: length at least two, first element equal to last, and an edge
between every pair of consecutive elements. -/
theorem reported_cycles_are_closed_walks (g : List (String × List String))
    (nodes : List String) (c : List String)
    (hc : c ∈ detect_circular_dependencies g nodes) :
    2 ≤ c.length ∧ c.head? = c.getLast?
      ∧ List.Chain' (fun x y => y ∈ ddFun g x) c := by
  suffices h : ∀ (F : Nat) (ns : List String) (st : CycState),
      (∀ x, x ∈ st.rec_stack ↔ x ∈ ([] : List String)) →
      (∀ c ∈ st.cycles, ClosedWalk g c) →
      ∀ c ∈ (ns.foldl
        (fun st n => if n ∈ st.visited then st else dfsCyc g F n [] st)
        st).cycles, ClosedWalk g c by
    exact h (cycFuel g nodes) nodes ⟨[], [], []⟩ (by intro x; simp)
      (by intro c2 hc2; cases hc2) c hc
  intro F ns
  induction ns with
  | nil => intro st _ hgood c2 hc2; exact hgood c2 hc2
  | cons n rest ihn =>
    intro st hstack hgood
    simp only [List.foldl_cons]
    by_cases hv : n ∈ st.visited
    · rw [if_pos hv]
      exact ihn st hstack hgood
    · rw [if_neg hv]
      refine ihn _ ?_ ?_
      · intro x
        rw [dfsCyc_rec_stack]
        exact hstack x
      · refine dfsCyc_cycles_good g _ n [] st ?_ ?_ hstack hgood
        · intro p hp; cases hp
        · exact List.chain'_nil

/-! ### C4: the maximum depth is the supremum of shortest-path hop counts

Specification side: `Walk g s n k` is the existence of a walk of `k` hops
from `s` to `n` along the adjacency function `g`; `HasDist` singles out the
shortest hop count. -/

/-- A walk of a given number of hops along the forward adjacency. -/
inductive Walk (g : String → List String) (s : String) : String → Nat → Prop
  | refl : Walk g s s 0
  | step {u t : String} {k : Nat} : Walk g s u k → t ∈ g u → Walk g s t (k + 1)

/-- `k` is the shortest-path hop count from `s` to `n`. -/
def HasDist (g : String → List String) (s n : String) (k : Nat) : Prop :=
  Walk g s n k ∧ ∀ j, Walk g s n j → k ≤ j

theorem walk_exists_dist {g : String → List String} {s n : String} {k : Nat}
    (h : Walk g s n k) : ∃ j, j ≤ k ∧ HasDist g s n j := by
  have hne : {j | Walk g s n j}.Nonempty := ⟨k, h⟩
  refine ⟨sInf {j | Walk g s n j}, Nat.sInf_le h, Nat.sInf_mem hne, ?_⟩
  intro j hj
  exact Nat.sInf_le hj

theorem hasDist_unique {g : String → List String} {s n : String} {k k' : Nat}
    (h : HasDist g s n k) (h' : HasDist g s n k') : k = k' :=
  Nat.le_antisymm (h.2 k' h'.1) (h'.2 k h.1)

theorem walk_zero {g : String → List String} {s n : String}
    (h : Walk g s n 0) : n = s := by
  cases h
  rfl

theorem hasDist_parent {g : String → List String} {s n : String} {k : Nat}
    (h : HasDist g s n (k + 1)) : ∃ p, n ∈ g p ∧ HasDist g s p k := by
  obtain ⟨hw, hmin⟩ := h
  cases hw with
  | step hw' hmem =>
    rename_i u
    obtain ⟨j, hjk, hdist⟩ := walk_exists_dist hw'
    have hk : k ≤ j := by
      have := hmin (j + 1) (Walk.step hdist.1 hmem)
      omega
    have : j = k := Nat.le_antisymm hjk hk
    subst this
    exact ⟨u, hmem, hdist⟩

theorem no_dist_ge {g : String → List String} {s : String} {m : Nat}
    (h : ∀ u, ¬ HasDist g s u m) : ∀ j, m ≤ j → ∀ u, ¬ HasDist g s u j := by
  intro j
  induction j with
  | zero =>
    intro hm u
    rcases Nat.le_zero.1 hm
    exact h u
  | succ j ih =>
    intro hm u hdist
    rcases Nat.lt_or_ge m (j + 1) with hlt | hge
    · obtain ⟨p, _, hp⟩ := hasDist_parent hdist
      exact ih (Nat.lt_succ_iff.1 hlt) p hp
    · have : m = j + 1 := Nat.le_antisymm hm hge
      subst this
      exact h u hdist

theorem walk_empty_out {g : String → List String} {s : String}
    (hg : g s = []) : ∀ {n : String} {k : Nat}, Walk g s n k → n = s ∧ k = 0 := by
  intro n k h
  induction h with
  | refl => exact ⟨rfl, rfl⟩
  | step hw hmem ih =>
    obtain ⟨rfl, rfl⟩ := ih
    rw [hg] at hmem
    cases hmem

/-- The nodes that can ever sit in the breadth-first queue: the start node
and every target stored in the dict at entry. -/
def bfsU (g0 : List (String × List String)) (s : String) : List String :=
  (s :: g0.flatMap (fun e => e.2)).dedup

/-- The potential of the breadth-first loop: queue length plus one dequeue
and an out-degree of enqueues for each not-yet-visited enqueueable node.
It strictly decreases at every iteration, so any fuel at least the potential
drains the queue. -/
def bfsPhi (g0 : List (String × List String)) (s : String)
    (q : List (String × Nat)) (v : List String) : Nat :=
  q.length + (((bfsU g0 s).filter (fun u => decide (u ∉ v))).map
    (fun u => 1 + (ddFun g0 u).length)).sum

theorem ddGet_fst (g : List (String × List String)) (k : String) :
    (ddGet g k).1 = ddFun g k := by
  unfold ddGet ddFun
  cases alookup g k with
  | none => rfl
  | some v => rfl

theorem alookup_some_mem_values {α : Type} (l : List (String × α)) (k : String)
    (w : α) (h : alookup l k = some w) : ∃ e ∈ l, e.2 = w := by
  induction l with
  | nil => cases h
  | cons e rest ih =>
    obtain ⟨k1, v1⟩ := e
    simp only [alookup] at h
    by_cases hk : k1 = k
    · rw [if_pos hk] at h
      injection h with h2
      exact ⟨(k1, v1), List.mem_cons_self _ _, h2⟩
    · rw [if_neg hk] at h
      obtain ⟨e2, he2, hw⟩ := ih h
      exact ⟨e2, List.mem_cons_of_mem _ he2, hw⟩

theorem ddFun_subset_bfsU (g0 : List (String × List String)) (s u x : String)
    (hx : x ∈ ddFun g0 u) : x ∈ bfsU g0 s := by
  unfold ddFun at hx
  refine List.mem_dedup.2 (List.mem_cons_of_mem _ ?_)
  cases hl : alookup g0 u with
  | none =>
    rw [hl] at hx
    cases hx
  | some w =>
    rw [hl] at hx
    obtain ⟨e, he, hw⟩ := alookup_some_mem_values g0 u w hl
    refine List.mem_flatMap.2 ⟨e, he, ?_⟩
    rw [hw]
    exact hx

theorem sum_filter_drop_one (t : String → Nat) :
    ∀ U : List String, U.Nodup → ∀ n ∈ U, ∀ v : List String, n ∉ v →
      ((U.filter (fun u => decide (u ∉ v))).map t).sum
        = ((U.filter (fun u => decide (u ∉ v ++ [n]))).map t).sum + t n := by
  intro U
  induction U with
  | nil => intro _ n hn; cases hn
  | cons u U' ih =>
    intro hnodup n hn v hnv
    have hnodup' : U'.Nodup := (List.nodup_cons.1 hnodup).2
    by_cases hun : u = n
    · subst hun
      have hu_notin : u ∉ U' := (List.nodup_cons.1 hnodup).1
      have htails : U'.filter (fun x => decide (x ∉ v))
          = U'.filter (fun x => decide (x ∉ v ++ [u])) := by
        refine List.filter_congr ?_
        intro x hx
        have hxu : ¬ x = u := fun hcon => hu_notin (hcon ▸ hx)
        simp [List.mem_append, hxu]
      have h1 : decide (u ∉ v) = true := by simp [hnv]
      have h2 : decide (u ∉ v ++ [u]) = false := by simp [List.mem_append]
      simp only [List.filter_cons, h1, h2, if_true, Bool.false_eq_true, if_false,
        List.map_cons, List.sum_cons, htails]
      omega
    · have hn' : n ∈ U' := by
        rcases List.mem_cons.1 hn with h | h
        · exact absurd h.symm hun
        · exact h
      have ihh := ih hnodup' n hn' v hnv
      by_cases hu : u ∈ v
      · have h1 : decide (u ∉ v) = false := by simp [hu]
        have h2 : decide (u ∉ v ++ [n]) = false := by simp [List.mem_append, hu]
        simp only [List.filter_cons, h1, h2, Bool.false_eq_true, if_false]
        omega
      · have h1 : decide (u ∉ v) = true := by simp [hu]
        have h2 : decide (u ∉ v ++ [n]) = true := by
          simp [List.mem_append, hu, hun]
        simp only [List.filter_cons, h1, h2, if_true, List.map_cons, List.sum_cons]
        omega

/-- The level-structured loop invariant of the breadth-first traversal: the
queue is a current-level segment `A` (depth `ℓ`) followed by a next-level
segment `B` (depth `ℓ + 1`); every entry carries a real walk of its recorded
depth; all nodes closer than `ℓ` are visited; every node at distance `ℓ` is
visited or pending in `A`; every node at distance `ℓ + 1` is pending in `B`
or reachable in one hop from an unvisited `A`-node. -/
def BfsInv (g0 : List (String × List String)) (s : String)
    (q : List (String × Nat)) (v : List String) (maxd : Nat) : Prop :=
  ∃ ℓ A B, q = A ++ B
    ∧ (∀ e ∈ A, e.2 = ℓ)
    ∧ (∀ e ∈ B, e.2 = ℓ + 1)
    ∧ (∀ e ∈ q, Walk (ddFun g0) s e.1 e.2)
    ∧ (∀ u k, HasDist (ddFun g0) s u k → k < ℓ → u ∈ v)
    ∧ (∀ u, HasDist (ddFun g0) s u ℓ → u ∈ v ∨ u ∈ A.map Prod.fst)
    ∧ (∀ u, HasDist (ddFun g0) s u (ℓ + 1) →
        u ∈ B.map Prod.fst ∨ ∃ p, (p, ℓ) ∈ A ∧ p ∉ v ∧ u ∈ ddFun g0 p)
    ∧ maxd ≤ ℓ

/-- On a non-empty queue the invariant can always be presented with a
non-empty current level: an exhausted level `ℓ` rolls over to `ℓ + 1`. -/
theorem bfsInv_normalize (g0 : List (String × List String)) (s : String)
    (q : List (String × Nat)) (v : List String) (maxd : Nat)
    (hInv : BfsInv g0 s q v maxd) (hq : q ≠ [])
    (hbound : ∀ u ∈ v, ∀ k, HasDist (ddFun g0) s u k → k ≤ maxd) :
    ∃ ℓ A B, q = A ++ B ∧ A ≠ []
    ∧ (∀ e ∈ A, e.2 = ℓ)
    ∧ (∀ e ∈ B, e.2 = ℓ + 1)
    ∧ (∀ e ∈ q, Walk (ddFun g0) s e.1 e.2)
    ∧ (∀ u k, HasDist (ddFun g0) s u k → k < ℓ → u ∈ v)
    ∧ (∀ u, HasDist (ddFun g0) s u ℓ → u ∈ v ∨ u ∈ A.map Prod.fst)
    ∧ (∀ u, HasDist (ddFun g0) s u (ℓ + 1) →
        u ∈ B.map Prod.fst ∨ ∃ p, (p, ℓ) ∈ A ∧ p ∉ v ∧ u ∈ ddFun g0 p)
    ∧ maxd ≤ ℓ := by
  obtain ⟨ℓ, A, B, hqAB, hA, hB, hwalk, hbelow, hat, hnext, hmax⟩ := hInv
  cases hAe : A with
  | cons a A' =>
    exact ⟨ℓ, A, B, hqAB, by rw [hAe]; exact fun hcon => List.noConfusion hcon,
      hA, hB, hwalk, hbelow, hat, hnext, hmax⟩
  | nil =>
    subst hAe
    have hBne : B ≠ [] := by
      intro hcon
      rw [hqAB, hcon] at hq
      exact hq rfl
    refine ⟨ℓ + 1, B, [], by rw [hqAB]; simp, hBne, hB, ?_, hwalk, ?_, ?_, ?_,
      Nat.le_succ_of_le hmax⟩
    · intro e he
      cases he
    · intro u k hdist hk
      rcases Nat.lt_or_ge k ℓ with hlt | hge
      · exact hbelow u k hdist hlt
      · have : k = ℓ := by omega
        subst this
        rcases hat u hdist with h | h
        · exact h
        · simp at h
    · intro u hdist
      rcases hnext u hdist with h | h
      · exact Or.inr h
      · obtain ⟨p, hp, _⟩ := h
        cases hp
    · intro u hdist
      obtain ⟨p, hpu, hpdist⟩ := hasDist_parent hdist
      rcases hnext p hpdist with h | h
      · obtain ⟨dp, hdp⟩ := List.mem_map.1 h
        refine Or.inr ⟨p, ?_, ?_, hpu⟩
        · have : dp.2 = ℓ + 1 := hB dp hdp.1
          have hdpp : dp = (p, ℓ + 1) := by
            obtain ⟨x, y⟩ := dp
            simp only at hdp this
            rw [hdp.2, this]
          rw [← hdpp]
          exact hdp.1
        · intro hpv
          have := hbound p hpv (ℓ + 1) hpdist
          omega
      · obtain ⟨p2, hp2, _⟩ := h
        cases hp2

theorem bfsLoop_nil (f : Nat) (g : List (String × List String))
    (v : List String) (maxd : Nat) : bfsLoop f g [] v maxd = (maxd, g) := by
  cases f with
  | zero => rfl
  | succ f => rfl

/-- With the queue drained, the recorded maximum equals the supremum of the
shortest-path distances from the start. -/
theorem bfs_finalize (g0 : List (String × List String)) (s : String)
    (v : List String) (maxd ℓ : Nat)
    (hbelow : ∀ u k, HasDist (ddFun g0) s u k → k < ℓ → u ∈ v)
    (hat : ∀ u, HasDist (ddFun g0) s u ℓ → u ∈ v)
    (hnone : ∀ u, ¬ HasDist (ddFun g0) s u (ℓ + 1))
    (hbound : ∀ u ∈ v, ∀ k, HasDist (ddFun g0) s u k → k ≤ maxd)
    (hzero : v = [] → maxd = 0)
    (hach : v ≠ [] → ∃ u ∈ v, HasDist (ddFun g0) s u maxd) :
    (∀ u k, HasDist (ddFun g0) s u k → k ≤ maxd)
    ∧ (maxd = 0 ∨ ∃ u, HasDist (ddFun g0) s u maxd) := by
  constructor
  · intro u k hdist
    rcases Nat.lt_or_ge k (ℓ + 1) with hk | hk
    · rcases Nat.lt_or_ge k ℓ with hk2 | hk2
      · exact hbound u (hbelow u k hdist hk2) k hdist
      · have : k = ℓ := by omega
        subst this
        exact hbound u (hat u hdist) k hdist
    · exact absurd hdist (no_dist_ge hnone k hk u)
  · cases hv : v with
    | nil => exact Or.inl (hzero hv)
    | cons x xs =>
      obtain ⟨u, _, hu⟩ := hach (by rw [hv]; exact fun hcon => List.noConfusion hcon)
      exact Or.inr ⟨u, hu⟩

/-- Correctness of the breadth-first loop: under the level invariant and
sufficient fuel, the returned maximum bounds every shortest-path distance
from the start and is itself attained (or zero). -/
theorem bfsLoop_correct (g0 : List (String × List String)) (s : String) :
    ∀ (f : Nat) (g : List (String × List String)) (q : List (String × Nat))
      (v : List String) (maxd : Nat),
      DictExtends g0 g →
      BfsInv g0 s q v maxd →
      (∀ u ∈ v, ∀ k, HasDist (ddFun g0) s u k → k ≤ maxd) →
      (v = [] → maxd = 0) →
      (v ≠ [] → ∃ u ∈ v, HasDist (ddFun g0) s u maxd) →
      (∀ e ∈ q, e.1 ∈ bfsU g0 s) →
      bfsPhi g0 s q v ≤ f →
      (∀ u k, HasDist (ddFun g0) s u k → k ≤ (bfsLoop f g q v maxd).1)
      ∧ ((bfsLoop f g q v maxd).1 = 0 ∨
         ∃ u, HasDist (ddFun g0) s u (bfsLoop f g q v maxd).1) := by
  have finalizeNil : ∀ (f : Nat) (g : List (String × List String)) (v : List String)
      (maxd : Nat), BfsInv g0 s [] v maxd →
      (∀ u ∈ v, ∀ k, HasDist (ddFun g0) s u k → k ≤ maxd) →
      (v = [] → maxd = 0) →
      (v ≠ [] → ∃ u ∈ v, HasDist (ddFun g0) s u maxd) →
      (∀ u k, HasDist (ddFun g0) s u k → k ≤ (bfsLoop f g [] v maxd).1)
      ∧ ((bfsLoop f g [] v maxd).1 = 0 ∨
         ∃ u, HasDist (ddFun g0) s u (bfsLoop f g [] v maxd).1) := by
    intro f g v maxd hInv hbound hzero hach
    rw [bfsLoop_nil]
    obtain ⟨ℓ, A, B, hqAB, hA, hB, _, hbelow, hat, hnext, _⟩ := hInv
    obtain ⟨hAnil, hBnil⟩ := List.append_eq_nil.1 hqAB.symm
    subst hAnil
    subst hBnil
    refine bfs_finalize g0 s v maxd ℓ hbelow ?_ ?_ hbound hzero hach
    · intro u hdist
      rcases hat u hdist with h | h
      · exact h
      · cases h
    · intro u hdist
      rcases hnext u hdist with h | h
      · cases h
      · obtain ⟨p, hp, _⟩ := h
        cases hp
  intro f
  induction f with
  | zero =>
    intro g q v maxd hext hInv hbound hzero hach hU hPhi
    cases hq : q with
    | cons e rest =>
      subst hq
      exfalso
      simp only [bfsPhi, List.length_cons] at hPhi
      omega
    | nil =>
      subst hq
      exact finalizeNil 0 g v maxd hInv hbound hzero hach
  | succ f ih =>
    intro g q v maxd hext hInv hbound hzero hach hU hPhi
    by_cases hqnil : q = []
    · subst hqnil
      exact finalizeNil (f + 1) g v maxd hInv hbound hzero hach
    · obtain ⟨ℓ, A, B, hqAB, hAne, hA, hB, hwalk, hbelow, hat, hnext, hmax⟩ :=
        bfsInv_normalize g0 s q v maxd hInv hqnil hbound
      obtain ⟨a, A', rfl⟩ : ∃ a A', A = a :: A' := by
        cases A with
        | nil => exact absurd rfl hAne
        | cons a A' => exact ⟨a, A', rfl⟩
      obtain ⟨n, d⟩ := a
      have hd : ℓ = d := (hA (n, d) (List.mem_cons_self _ _)).symm
      subst hd
      subst hqAB
      simp only [List.cons_append] at hwalk hU hPhi ⊢
      simp only [bfsLoop]
      by_cases hv : n ∈ v
      · rw [if_pos hv]
        refine ih g (A' ++ B) v maxd hext ?_ hbound hzero hach ?_ ?_
        · refine ⟨ℓ, A', B, rfl, ?_, hB, ?_, hbelow, ?_, ?_, hmax⟩
          · intro e he
            exact hA e (List.mem_cons_of_mem _ he)
          · intro e he
            exact hwalk e (List.mem_cons_of_mem _ he)
          · intro u hdist
            rcases hat u hdist with h | h
            · exact Or.inl h
            · simp only [List.map_cons, List.mem_cons] at h
              rcases h with h | h
              · subst h
                exact Or.inl hv
              · exact Or.inr h
          · intro u hdist
            rcases hnext u hdist with h | h
            · exact Or.inl h
            · obtain ⟨p, hp, hpv, hpu⟩ := h
              rcases List.mem_cons.1 hp with hp2 | hp2
              · injection hp2 with hp3 _
                subst hp3
                exact absurd hv hpv
              · exact Or.inr ⟨p, hp2, hpv, hpu⟩
        · intro e he
          exact hU e (List.mem_cons_of_mem _ he)
        · simp only [bfsPhi, List.length_cons, List.length_append] at hPhi ⊢
          omega
      · rw [if_neg hv]
        -- the visit step
        have hwalk_n : Walk (ddFun g0) s n ℓ := hwalk (n, ℓ) (List.mem_cons_self _ _)
        have hdist_n : HasDist (ddFun g0) s n ℓ := by
          refine ⟨hwalk_n, ?_⟩
          intro j hj
          obtain ⟨j2, hj2le, hj2d⟩ := walk_exists_dist hj
          rcases Nat.lt_or_ge j2 ℓ with hlt | hge
          · exact absurd (hbelow n j2 hj2d hlt) hv
          · omega
        have hfn : (ddGet g n).1 = ddFun g0 n :=
          (ddGet_fst g n).trans (dictExtends_ddFun g0 g hext n)
        rw [hfn, Nat.max_eq_right hmax, List.append_assoc]
        have hnU : n ∈ bfsU g0 s := hU (n, ℓ) (List.mem_cons_self _ _)
        have hS := sum_filter_drop_one (fun u => 1 + (ddFun g0 u).length)
          (bfsU g0 s) (List.nodup_dedup _) n hnU v hv
        refine ih (ddGet g n).2
          (A' ++ (B ++ ((ddFun g0 n).filter (fun d => decide (d ∉ v ++ [n]))).map
            (fun d => (d, ℓ + 1))))
          (v ++ [n]) ℓ (ddGet_extends g0 g n hext) ?_ ?_ ?_ ?_ ?_ ?_
        · -- the invariant at the same level with the new pushes
          refine ⟨ℓ, A', B ++ ((ddFun g0 n).filter
            (fun d => decide (d ∉ v ++ [n]))).map (fun d => (d, ℓ + 1)), rfl,
            ?_, ?_, ?_, ?_, ?_, ?_, Nat.le_refl ℓ⟩
          · intro e he
            exact hA e (List.mem_cons_of_mem _ he)
          · intro e he
            rcases List.mem_append.1 he with he | he
            · exact hB e he
            · obtain ⟨x, _, rfl⟩ := List.mem_map.1 he
              rfl
          · intro e he
            rcases List.mem_append.1 he with he | he
            · exact hwalk e (List.mem_cons_of_mem _ (List.mem_append.2 (Or.inl he)))
            · rcases List.mem_append.1 he with he | he
              · exact hwalk e (List.mem_cons_of_mem _ (List.mem_append.2 (Or.inr he)))
              · obtain ⟨x, hx, rfl⟩ := List.mem_map.1 he
                exact Walk.step hwalk_n (List.mem_filter.1 hx).1
          · intro u k hdist hk
            exact List.mem_append_left _ (hbelow u k hdist hk)
          · intro u hdist
            rcases hat u hdist with h | h
            · exact Or.inl (List.mem_append_left _ h)
            · simp only [List.map_cons, List.mem_cons] at h
              rcases h with h | h
              · subst h
                exact Or.inl (List.mem_append_right _ (List.mem_singleton.2 rfl))
              · exact Or.inr h
          · intro u hdist
            have hunv' : u ∈ ddFun g0 n → u ∉ v ++ [n] := by
              intro hu hcon
              rcases List.mem_append.1 hcon with hcon | hcon
              · have := hbound u hcon (ℓ + 1) hdist
                omega
              · rw [List.mem_singleton.1 hcon] at hdist
                have := hasDist_unique hdist_n hdist
                omega
            rcases hnext u hdist with h | h
            · rw [List.map_append]
              exact Or.inl (List.mem_append_left _ h)
            · obtain ⟨p, hp, hpv, hpu⟩ := h
              by_cases hpn : p = n
              · subst hpn
                rw [List.map_append]
                refine Or.inl (List.mem_append_right _ ?_)
                simp only [List.map_map, List.mem_map]
                refine ⟨u, List.mem_filter.2 ⟨hpu, ?_⟩, rfl⟩
                simp only [decide_eq_true_eq]
                exact hunv' hpu
              · rcases List.mem_cons.1 hp with hp2 | hp2
                · injection hp2 with hp3 _
                  exact absurd hp3 hpn
                · refine Or.inr ⟨p, hp2, ?_, hpu⟩
                  intro hcon
                  rcases List.mem_append.1 hcon with hcon | hcon
                  · exact hpv hcon
                  · exact hpn (List.mem_singleton.1 hcon)
        · intro u hu k hdist
          rcases List.mem_append.1 hu with hu | hu
          · exact Nat.le_trans (hbound u hu k hdist) hmax
          · rw [List.mem_singleton.1 hu] at hdist
            have := hasDist_unique hdist hdist_n
            omega
        · intro hcon
          have := congrArg List.length hcon
          simp at this
        · intro _
          exact ⟨n, List.mem_append_right _ (List.mem_singleton.2 rfl), hdist_n⟩
        · intro e he
          rcases List.mem_append.1 he with he | he
          · exact hU e (List.mem_cons_of_mem _ (List.mem_append.2 (Or.inl he)))
          · rcases List.mem_append.1 he with he | he
            · exact hU e (List.mem_cons_of_mem _ (List.mem_append.2 (Or.inr he)))
            · obtain ⟨x, hx, rfl⟩ := List.mem_map.1 he
              exact ddFun_subset_bfsU g0 s n x (List.mem_filter.1 hx).1
        · have hpushlen :
              (((ddFun g0 n).filter (fun d => decide (d ∉ v ++ [n]))).map
                (fun d => (d, ℓ + 1))).length ≤ (ddFun g0 n).length := by
            rw [List.length_map]
            exact List.length_filter_le _ _
          have hbeta : (fun u => 1 + (ddFun g0 u).length) n
              = 1 + (ddFun g0 n).length := rfl
          rw [hbeta] at hS
          simp only [bfsPhi, List.length_cons, List.length_append] at hPhi ⊢
          omega

/-- `d` is `d0` followed by default entries only: the exact shape a
`defaultdict(list)` takes after any number of missing-key reads. -/
def EmptyPadded (d0 d : List (String × List String)) : Prop :=
  ∃ extra, d = d0 ++ extra ∧ ∀ e ∈ extra, e.2 = ([] : List String)

theorem emptyPadded_refl (d0 : List (String × List String)) : EmptyPadded d0 d0 :=
  ⟨[], (List.append_nil d0).symm, fun e he => by cases he⟩

theorem alookup_all_empty (extra : List (String × List String)) (k : String)
    (h : ∀ e ∈ extra, e.2 = ([] : List String)) :
    alookup extra k = none ∨ alookup extra k = some [] := by
  induction extra with
  | nil => exact Or.inl rfl
  | cons e rest ih =>
    obtain ⟨k1, v1⟩ := e
    have hv : v1 = [] := h (k1, v1) (List.mem_cons_self _ _)
    by_cases hk : k1 = k
    · right
      simp [alookup, hk, hv]
    · simp only [alookup, if_neg hk]
      exact ih (fun e he => h e (List.mem_cons_of_mem _ he))

theorem emptyPadded_dictExtends (d0 d : List (String × List String))
    (h : EmptyPadded d0 d) : DictExtends d0 d := by
  obtain ⟨extra, rfl, hall⟩ := h
  intro k
  rw [alookup_append]
  cases h0 : alookup d0 k with
  | some v => exact Or.inl rfl
  | none =>
    rcases alookup_all_empty extra k hall with h2 | h2
    · exact Or.inl h2
    · exact Or.inr ⟨rfl, h2⟩

theorem ddGet_emptyPadded (d0 d : List (String × List String)) (k : String)
    (h : EmptyPadded d0 d) : EmptyPadded d0 (ddGet d k).2 := by
  obtain ⟨extra, rfl, hall⟩ := h
  unfold ddGet
  cases hl : alookup (d0 ++ extra) k with
  | some v => exact ⟨extra, rfl, hall⟩
  | none =>
    refine ⟨extra ++ [(k, [])], List.append_assoc _ _ _, ?_⟩
    intro e he
    rcases List.mem_append.1 he with he | he
    · exact hall e he
    · rw [List.mem_singleton.1 he]

theorem bfsLoop_emptyPadded (d0 : List (String × List String)) :
    ∀ (f : Nat) (g : List (String × List String)) (q : List (String × Nat))
      (visited : List String) (maxd : Nat), EmptyPadded d0 g →
      EmptyPadded d0 (bfsLoop f g q visited maxd).2 := by
  intro f
  induction f with
  | zero =>
    intro g q visited maxd h
    cases q with
    | nil => exact h
    | cons e rest => exact h
  | succ f ih =>
    intro g q visited maxd h
    cases q with
    | nil => exact h
    | cons e rest =>
      obtain ⟨n, dep⟩ := e
      simp only [bfsLoop]
      by_cases hv : n ∈ visited
      · rw [if_pos hv]
        exact ih g rest visited maxd h
      · rw [if_neg hv]
        exact ih _ _ _ _ (ddGet_emptyPadded d0 g n h)

theorem calculate_depth_emptyPadded (d0 g : List (String × List String))
    (start : String) (h : EmptyPadded d0 g) :
    EmptyPadded d0 (calculate_depth_from_node g start).2 := by
  unfold calculate_depth_from_node
  cases hl : alookup g start with
  | none => exact h
  | some v => exact bfsLoop_emptyPadded d0 _ _ _ _ _ h

theorem zeroDegree_fold_emptyPadded (d0 : List (String × List String))
    (nodes : List String) :
    ∀ acc : List String × List (String × List String), EmptyPadded d0 acc.2 →
      EmptyPadded d0 (nodes.foldl
        (fun acc n =>
          let p := ddGet acc.2 n
          (if p.1.length = 0 then acc.1 ++ [n] else acc.1, p.2)) acc).2 := by
  induction nodes with
  | nil => intro acc h; exact h
  | cons n rest ih =>
    intro acc h
    simp only [List.foldl_cons]
    exact ih _ (ddGet_emptyPadded d0 acc.2 n h)

theorem flatMap_all_empty (l : List (String × List String)) :
    (∀ e ∈ l, e.2 = ([] : List String)) → l.flatMap (fun e => e.2) = [] := by
  induction l with
  | nil =>
    intro _
    rfl
  | cons e rest ih =>
    intro h
    have he : e.2 = ([] : List String) := h e (List.mem_cons_self _ _)
    have ih2 := ih (fun x hx => h x (List.mem_cons_of_mem _ hx))
    simp [he, ih2]

theorem emptyPadded_flatMap (d0 d : List (String × List String))
    (h : EmptyPadded d0 d) :
    d.flatMap (fun e => e.2) = d0.flatMap (fun e => e.2) := by
  obtain ⟨extra, rfl, hall⟩ := h
  rw [List.flatMap_append, flatMap_all_empty extra hall, List.append_nil]

/-- The first component of the root/leaf fold: exactly the nodes whose
adjacency list in the original dict is empty, in node order. -/
theorem zeroDegree_fold_fst (d0 : List (String × List String)) :
    ∀ (nodes : List String) (acc : List String × List (String × List String)),
      EmptyPadded d0 acc.2 →
      (nodes.foldl
        (fun acc n =>
          let p := ddGet acc.2 n
          (if p.1.length = 0 then acc.1 ++ [n] else acc.1, p.2)) acc).1
        = acc.1 ++ nodes.filter (fun n => decide (ddFun d0 n = [])) := by
  intro nodes
  induction nodes with
  | nil =>
    intro acc h
    simp
  | cons n rest ih =>
    intro acc h
    have hfst : (ddGet acc.2 n).1 = ddFun d0 n :=
      (ddGet_fst acc.2 n).trans
        (dictExtends_ddFun d0 acc.2 (emptyPadded_dictExtends d0 acc.2 h) n)
    have hstep := ih
      ((if (ddGet acc.2 n).1.length = 0 then acc.1 ++ [n] else acc.1, (ddGet acc.2 n).2))
      (ddGet_emptyPadded d0 acc.2 n h)
    simp only [List.foldl_cons]
    rw [hstep]
    by_cases hz : ddFun d0 n = []
    · have hlen : (ddGet acc.2 n).1.length = 0 := by
        rw [hfst, hz]
        rfl
      rw [if_pos hlen]
      simp [List.filter_cons, hz, List.append_assoc]
    · have hlen : ¬ (ddGet acc.2 n).1.length = 0 := by
        rw [hfst]
        intro hcon
        exact hz (List.length_eq_zero.1 hcon)
      rw [if_neg hlen]
      simp [List.filter_cons, hz]

theorem emptyPadded_bfsFuel (d0 d : List (String × List String)) (s : String)
    (h : EmptyPadded d0 d) : bfsFuel d s = bfsFuel d0 s := by
  have hfm := emptyPadded_flatMap d0 d h
  have hfun : ddFun d = ddFun d0 :=
    funext (dictExtends_ddFun d0 d (emptyPadded_dictExtends d0 d h))
  unfold bfsFuel
  rw [hfm, hfun]

/-- `calculate_depth_from_node`, run on any default-padded version of the
original dict, returns the supremum of the shortest-path hop counts from the
start node. -/
theorem calculate_depth_correct (g0 g : List (String × List String)) (s : String)
    (h : EmptyPadded g0 g) :
    (∀ u k, HasDist (ddFun g0) s u k → k ≤ (calculate_depth_from_node g s).1)
    ∧ ((calculate_depth_from_node g s).1 = 0
       ∨ ∃ u, HasDist (ddFun g0) s u (calculate_depth_from_node g s).1) := by
  have hext : DictExtends g0 g := emptyPadded_dictExtends g0 g h
  unfold calculate_depth_from_node
  cases hl : alookup g s with
  | none =>
    have h0 : alookup g0 s = none := by
      rcases hext s with h2 | h2
      · rw [← h2, hl]
      · rw [h2.2] at hl
        exact Option.noConfusion hl
    have hgs : ddFun g0 s = [] := by
      unfold ddFun
      rw [h0]
      rfl
    constructor
    · intro u k hdist
      obtain ⟨rfl, rfl⟩ := walk_empty_out hgs hdist.1
      exact Nat.le_refl 0
    · exact Or.inl rfl
  | some w =>
    refine bfsLoop_correct g0 s (bfsFuel g s) g [(s, 0)] [] 0 hext ?_ ?_ ?_ ?_ ?_ ?_
    · refine ⟨0, [(s, 0)], [], rfl, ?_, ?_, ?_, ?_, ?_, ?_, Nat.le_refl 0⟩
      · intro e he
        rw [List.mem_singleton.1 he]
      · intro e he
        cases he
      · intro e he
        rw [List.mem_singleton.1 he]
        exact Walk.refl
      · intro u k hdist hk
        omega
      · intro u hdist
        right
        rw [walk_zero hdist.1]
        exact List.mem_singleton.2 rfl
      · intro u hdist
        obtain ⟨p, hpu, hpdist⟩ := hasDist_parent hdist
        rw [walk_zero hpdist.1] at hpu
        exact Or.inr ⟨s, List.mem_singleton.2 rfl, List.not_mem_nil s, hpu⟩
    · intro u hu
      cases hu
    · intro _
      rfl
    · intro hcon
      exact absurd rfl hcon
    · intro e he
      rw [List.mem_singleton.1 he]
      exact List.mem_dedup.2 (List.mem_cons_self _ _)
    · have hfe : ∀ l : List String,
          l.filter (fun u => decide (u ∉ ([] : List String))) = l :=
        fun l => List.filter_eq_self.2 (fun a _ => by simp)
      rw [emptyPadded_bfsFuel g0 g s h]
      simp only [bfsPhi, hfe, bfsFuel, bfsU, List.length_cons, List.length_nil]
      omega

/-- The per-root fold of `calculate_graph_metrics`: the accumulated maximum
only grows, bounds every shortest-path hop count from every root in the
list, and is attained unless it is the inherited accumulator value. -/
theorem depth_fold_correct (g0 : List (String × List String)) :
    ∀ (rts : List String) (acc : Nat × List (String × List String)),
      EmptyPadded g0 acc.2 →
      acc.1 ≤ (rts.foldl
          (fun (acc : Nat × List (String × List String)) root =>
            let p := calculate_depth_from_node acc.2 root
            (max acc.1 p.1, p.2)) acc).1
      ∧ (∀ r ∈ rts, ∀ u k, HasDist (ddFun g0) r u k →
          k ≤ (rts.foldl
            (fun (acc : Nat × List (String × List String)) root =>
              let p := calculate_depth_from_node acc.2 root
              (max acc.1 p.1, p.2)) acc).1)
      ∧ ((rts.foldl
            (fun (acc : Nat × List (String × List String)) root =>
              let p := calculate_depth_from_node acc.2 root
              (max acc.1 p.1, p.2)) acc).1 = acc.1
         ∨ ∃ r ∈ rts, ∃ u, HasDist (ddFun g0) r u ((rts.foldl
            (fun (acc : Nat × List (String × List String)) root =>
              let p := calculate_depth_from_node acc.2 root
              (max acc.1 p.1, p.2)) acc).1)) := by
  intro rts
  induction rts with
  | nil =>
    intro acc h
    exact ⟨Nat.le_refl _, ⟨fun r hr => absurd hr (List.not_mem_nil r), Or.inl rfl⟩⟩
  | cons root rest ih =>
    intro acc h
    have hdc := calculate_depth_correct g0 acc.2 root h
    have hpad : EmptyPadded g0 (calculate_depth_from_node acc.2 root).2 :=
      calculate_depth_emptyPadded g0 acc.2 root h
    have hstep := ih
      ((max acc.1 (calculate_depth_from_node acc.2 root).1,
        (calculate_depth_from_node acc.2 root).2)) hpad
    obtain ⟨hmono, hub, hach⟩ := hstep
    simp only [List.foldl_cons]
    refine ⟨Nat.le_trans (Nat.le_max_left _ _) hmono, ?_, ?_⟩
    · intro r hr u k hdist
      rcases List.mem_cons.1 hr with hr | hr
      · subst hr
        exact Nat.le_trans (hdc.1 u k hdist)
          (Nat.le_trans (Nat.le_max_right _ _) hmono)
      · exact hub r hr u k hdist
    · rcases hach with hach | hach
      · by_cases hle : (calculate_depth_from_node acc.2 root).1 ≤ acc.1
        · rw [hach, Nat.max_eq_left hle]
          exact Or.inl rfl
        · have hmaxr : max acc.1 (calculate_depth_from_node acc.2 root).1
              = (calculate_depth_from_node acc.2 root).1 :=
            Nat.max_eq_right (Nat.le_of_not_le hle)
          rcases hdc.2 with hz | hu
          · rw [hz] at hle
            exact absurd (Nat.zero_le _) hle
          · obtain ⟨u, hu⟩ := hu
            refine Or.inr ⟨root, List.mem_cons_self _ _, u, ?_⟩
            rw [hach, hmaxr]
            exact hu
      · obtain ⟨r, hr, u, hu⟩ := hach
        exact Or.inr ⟨r, List.mem_cons_of_mem _ hr, u, hu⟩

/-- C4: the reported maximum depth is the supremum, over all roots (the
in-degree-0 nodes) and all nodes reachable from a root, of the shortest-path
hop count from the root: it bounds every such hop count, is attained by some
root unless it is zero, the root list is exactly the nodes whose reverse
adjacency is empty, and it is zero whenever every root has no outgoing
edge. -/
theorem metrics_max_depth_is_shortest_path_sup (a : AnalyzerState) :
    (∀ r ∈ a.nodes, ddFun a.reverse_graph r = [] →
      ∀ u k, HasDist (ddFun a.graph) r u k →
        k ≤ (calculate_graph_metrics a).1.max_depth)
    ∧ ((calculate_graph_metrics a).1.max_depth = 0
       ∨ ∃ r ∈ a.nodes, ddFun a.reverse_graph r = []
           ∧ ∃ u, HasDist (ddFun a.graph) r u (calculate_graph_metrics a).1.max_depth)
    ∧ (zeroDegreeNodes a.nodes a.reverse_graph).1
        = a.nodes.filter (fun n => decide (ddFun a.reverse_graph n = []))
    ∧ ((∀ r ∈ a.nodes, ddFun a.reverse_graph r = [] → ddFun a.graph r = []) →
        (calculate_graph_metrics a).1.max_depth = 0) := by
  have hroots : (zeroDegreeNodes a.nodes a.reverse_graph).1
      = a.nodes.filter (fun n => decide (ddFun a.reverse_graph n = [])) := by
    unfold zeroDegreeNodes
    rw [zeroDegree_fold_fst a.reverse_graph a.nodes ([], a.reverse_graph)
      (emptyPadded_refl _)]
    rw [List.nil_append]
  have hpad : EmptyPadded a.graph (zeroDegreeNodes a.nodes a.graph).2 := by
    unfold zeroDegreeNodes
    exact zeroDegree_fold_emptyPadded a.graph a.nodes ([], a.graph)
      (emptyPadded_refl _)
  have hfold := depth_fold_correct a.graph
    (zeroDegreeNodes a.nodes a.reverse_graph).1
    (0, (zeroDegreeNodes a.nodes a.graph).2) hpad
  obtain ⟨_, hub, hach⟩ := hfold
  have hub2 : ∀ r ∈ a.nodes, ddFun a.reverse_graph r = [] →
      ∀ u k, HasDist (ddFun a.graph) r u k →
        k ≤ (calculate_graph_metrics a).1.max_depth := by
    intro r hr hrev u k hdist
    refine hub r ?_ u k hdist
    rw [hroots]
    refine List.mem_filter.2 ⟨hr, ?_⟩
    simp [hrev]
  have hach2 : (calculate_graph_metrics a).1.max_depth = 0
      ∨ ∃ r ∈ a.nodes, ddFun a.reverse_graph r = []
          ∧ ∃ u, HasDist (ddFun a.graph) r u
            (calculate_graph_metrics a).1.max_depth := by
    rcases hach with hach | hach
    · exact Or.inl hach
    · obtain ⟨r, hr, u, hu⟩ := hach
      rw [hroots] at hr
      obtain ⟨hrn, hrd⟩ := List.mem_filter.1 hr
      refine Or.inr ⟨r, hrn, ?_, u, hu⟩
      simpa using hrd
  refine ⟨hub2, hach2, hroots, ?_⟩
  intro hall
  rcases hach2 with h0 | ⟨r, hrn, hrev, u, hu⟩
  · exact h0
  · have hout : ddFun a.graph r = [] := hall r hrn hrev
    obtain ⟨_, h0⟩ := walk_empty_out hout hu.1
    exact h0

/-- Concrete analyzer state for the C4 witness: one root with one edge. -/
def aW : AnalyzerState :=
  ⟨[("a", ["b"]), ("b", [])], [("a", []), ("b", ["a"])], ["a", "b"], []⟩

/-- Witness for C4: on the two-node graph the reported maximum depth is 1,
and the theorem instantiated at the root bounds the concrete shortest-path
distance of the far node by it. -/
theorem metrics_max_depth_witness :
    1 ≤ (calculate_graph_metrics aW).1.max_depth
    ∧ (calculate_graph_metrics aW).1.max_depth = 1 := by
  constructor
  · refine (metrics_max_depth_is_shortest_path_sup aW).1 (String.mk ['a'])
      (by decide) (by decide) (String.mk ['b']) 1
      ⟨Walk.step Walk.refl (by decide), ?_⟩
    intro j hw
    cases j with
    | zero => exact absurd (walk_zero hw) (by decide)
    | succ j => omega
  · decide

/-- Witness for C10 at the triangle graph. -/
theorem reported_cycles_are_closed_walks_witness :
    2 ≤ (["a", "b", "c", "a"] : List String).length
    ∧ (["a", "b", "c", "a"] : List String).head? = (["a", "b", "c", "a"] : List String).getLast?
    ∧ List.Chain'
        (fun x y => y ∈ ddFun [("a", ["b"]), ("b", ["c"]), ("c", ["a"])] x)
        ["a", "b", "c", "a"] := by
  exact reported_cycles_are_closed_walks [("a", ["b"]), ("b", ["c"]), ("c", ["a"])]
    ["a", "b", "c"] ["a", "b", "c", "a"] (by decide)

end SwiftDep
